import Mathlib

set_option linter.unusedVariables false

namespace GHAnalytics

/-! Shallow embedding of the discord-analytics service (backend.js, the two
revisions concatenated in server.js, and the unnamed revisions).  Timestamps
are natural numbers denoting instants already converted to the fixed local
timezone; paginated remote endpoints are modelled as the list of responses
the remote would return, in request order, with `none` standing for a
tolerated 403 (the JS `null` marker). -/

/-- A Discord message as decoded from the REST API.  The `timestamp` field is
the message time after `adjustToLocalTime`; `reactions` is `none` when the
field is absent from the payload (the JS code tests `msg.reactions` for
truthiness before summing). -/
structure RawMsg where
  id : Nat
  author : Nat
  timestamp : Nat
  content : String
  reactions : Option (List Nat)
  deriving DecidableEq

/-- A message with the deleted-overlay flag merged from message-delete audit
log entries, as produced by the server revision fetcher (`fetchMessages`
inside `getAllChannelMessages`).  The fetcher also stashes `deleteDate` and
`originalContent` on the message, but no metric ever reads them, so only the
flag is kept. -/
structure Msg extends RawMsg where
  deleted : Bool
  deriving DecidableEq

/-- An audit log entry; `channel_id` models `options.channel_id`, present on
message-delete entries. -/
structure AuditEntry where
  id : Nat
  target_id : Nat
  created_at : Nat
  channel_id : Option Nat
  deriving DecidableEq

/-- Window membership of a message timestamp:
`msgTime.isSameOrAfter(startDate) && msgTime.isSameOrBefore(endDate)`. -/
def inWindow (s e ts : Nat) : Bool := decide (s ≤ ts) && decide (ts ≤ e)

theorem inWindow_iff (s e ts : Nat) : inWindow s e ts = true ↔ (s ≤ ts ∧ ts ≤ e) := by
  simp [inWindow]

/-- Per-page scan of backend.js `getChannelMessages`: an in-window message is
pushed, a message before the window start makes the whole fetch return at
once (flag `true`), and a message after the window end is skipped without
stopping the scan. -/
def scanBatchB (s e : Nat) : List RawMsg → List RawMsg × Bool
  | [] => ([], false)
  | m :: rest =>
    if inWindow s e m.timestamp then
      ((m :: (scanBatchB s e rest).1), (scanBatchB s e rest).2)
    else if m.timestamp < s then ([], true)
    else scanBatchB s e rest

/-- Pagination loop of backend.js `getChannelMessages`: a `none` page (the
tolerated 403 marker) returns the empty list at once, discarding the
accumulator; an empty page breaks with the accumulator; otherwise the page is
scanned and, unless the scan hit a before-window message, the loop continues
with the next page. -/
def getChannelMessagesAux (s e : Nat) (acc : List RawMsg) :
    List (Option (List RawMsg)) → List RawMsg
  | [] => acc
  | none :: _ => []
  | some [] :: _ => acc
  | some (m :: ms) :: rest =>
    if (scanBatchB s e (m :: ms)).2 then acc ++ (scanBatchB s e (m :: ms)).1
    else getChannelMessagesAux s e (acc ++ (scanBatchB s e (m :: ms)).1) rest

/-- backend.js / part_000 `getChannelMessages`, with the remote modelled as
the list of pages it returns. -/
def getChannelMessages (s e : Nat) (pages : List (Option (List RawMsg))) : List RawMsg :=
  getChannelMessagesAux s e [] pages

/-- Per-page scan of the server revision `fetchMessages`: a message before the
window start stops the scan; a message at or before the window end is kept,
tagged deleted when its id appears in the delete-log map; later messages are
skipped. -/
def scanBatchD (delIds : List Nat) (s e : Nat) : List RawMsg → List Msg × Bool
  | [] => ([], false)
  | m :: rest =>
    if m.timestamp < s then ([], true)
    else if m.timestamp ≤ e then
      (({ toRawMsg := m, deleted := delIds.contains m.id } : Msg) :: (scanBatchD delIds s e rest).1,
        (scanBatchD delIds s e rest).2)
    else scanBatchD delIds s e rest

/-- Pagination loop of the server revision `fetchMessages`: both a `none`
page and an empty page break, keeping the accumulated messages. -/
def fetchMessagesAux (delIds : List Nat) (s e : Nat) (acc : List Msg) :
    List (Option (List RawMsg)) → List Msg
  | [] => acc
  | none :: _ => acc
  | some [] :: _ => acc
  | some (m :: ms) :: rest =>
    if (scanBatchD delIds s e (m :: ms)).2 then acc ++ (scanBatchD delIds s e (m :: ms)).1
    else fetchMessagesAux delIds s e (acc ++ (scanBatchD delIds s e (m :: ms)).1) rest

/-- Server revision `fetchMessages` (the helper inside
`getAllChannelMessages`). -/
def fetchMessages (delIds : List Nat) (s e : Nat)
    (pages : List (Option (List RawMsg))) : List Msg :=
  fetchMessagesAux delIds s e [] pages

theorem scanBatchB_mem (s e : Nat) :
    ∀ (b : List RawMsg) (m : RawMsg), m ∈ (scanBatchB s e b).1 →
      s ≤ m.timestamp ∧ m.timestamp ≤ e := by
  intro b
  induction b with
  | nil => intro m h; simp [scanBatchB] at h
  | cons x rest ih =>
    intro m h
    by_cases hw : inWindow s e x.timestamp
    · rw [scanBatchB, if_pos hw] at h
      rcases List.mem_cons.mp h with h1 | h2
      · subst h1; exact (inWindow_iff s e m.timestamp).mp hw
      · exact ih m h2
    · rw [scanBatchB, if_neg hw] at h
      by_cases hb : x.timestamp < s
      · rw [if_pos hb] at h; simp at h
      · rw [if_neg hb] at h; exact ih m h

theorem getChannelMessagesAux_mem (s e : Nat) :
    ∀ (pages : List (Option (List RawMsg))) (acc : List RawMsg),
      (∀ m ∈ acc, s ≤ m.timestamp ∧ m.timestamp ≤ e) →
      ∀ m ∈ getChannelMessagesAux s e acc pages, s ≤ m.timestamp ∧ m.timestamp ≤ e := by
  intro pages
  induction pages with
  | nil => intro acc hacc m hm; exact hacc m hm
  | cons p rest ih =>
    intro acc hacc m hm
    match p with
    | none => simp [getChannelMessagesAux] at hm
    | some [] => exact hacc m (by simpa [getChannelMessagesAux] using hm)
    | some (x :: xs) =>
      rw [getChannelMessagesAux] at hm
      by_cases hstop : (scanBatchB s e (x :: xs)).2
      · rw [if_pos hstop] at hm
        rcases List.mem_append.mp hm with h1 | h2
        · exact hacc m h1
        · exact scanBatchB_mem s e _ m h2
      · rw [if_neg hstop] at hm
        refine ih (acc ++ (scanBatchB s e (x :: xs)).1) ?_ m hm
        intro m' hm'
        rcases List.mem_append.mp hm' with h1 | h2
        · exact hacc m' h1
        · exact scanBatchB_mem s e _ m' h2

/-- Every message returned by the backend fetcher lies in the closed window. -/
theorem getChannelMessages_mem_window (s e : Nat) (pages : List (Option (List RawMsg))) :
    ∀ m ∈ getChannelMessages s e pages, s ≤ m.timestamp ∧ m.timestamp ≤ e := by
  intro m hm
  exact getChannelMessagesAux_mem s e pages [] (by intro m' h; simp at h) m hm

theorem scanBatchD_mem (delIds : List Nat) (s e : Nat) :
    ∀ (b : List RawMsg) (m : Msg), m ∈ (scanBatchD delIds s e b).1 →
      s ≤ m.timestamp ∧ m.timestamp ≤ e := by
  intro b
  induction b with
  | nil => intro m h; simp [scanBatchD] at h
  | cons x rest ih =>
    intro m h
    by_cases hb : x.timestamp < s
    · rw [scanBatchD, if_pos hb] at h; simp at h
    · rw [scanBatchD, if_neg hb] at h
      by_cases he : x.timestamp ≤ e
      · rw [if_pos he] at h
        rcases List.mem_cons.mp h with h1 | h2
        · subst h1; exact ⟨Nat.le_of_not_lt hb, he⟩
        · exact ih m h2
      · rw [if_neg he] at h; exact ih m h

theorem fetchMessagesAux_mem (delIds : List Nat) (s e : Nat) :
    ∀ (pages : List (Option (List RawMsg))) (acc : List Msg),
      (∀ m ∈ acc, s ≤ m.timestamp ∧ m.timestamp ≤ e) →
      ∀ m ∈ fetchMessagesAux delIds s e acc pages, s ≤ m.timestamp ∧ m.timestamp ≤ e := by
  intro pages
  induction pages with
  | nil => intro acc hacc m hm; exact hacc m hm
  | cons p rest ih =>
    intro acc hacc m hm
    match p with
    | none => exact hacc m (by simpa [fetchMessagesAux] using hm)
    | some [] => exact hacc m (by simpa [fetchMessagesAux] using hm)
    | some (x :: xs) =>
      rw [fetchMessagesAux] at hm
      by_cases hstop : (scanBatchD delIds s e (x :: xs)).2
      · rw [if_pos hstop] at hm
        rcases List.mem_append.mp hm with h1 | h2
        · exact hacc m h1
        · exact scanBatchD_mem delIds s e _ m h2
      · rw [if_neg hstop] at hm
        refine ih (acc ++ (scanBatchD delIds s e (x :: xs)).1) ?_ m hm
        intro m' hm'
        rcases List.mem_append.mp hm' with h1 | h2
        · exact hacc m' h1
        · exact scanBatchD_mem delIds s e _ m' h2

/-- Every message returned by the server revision fetcher lies in the closed
window. -/
theorem fetchMessages_mem_window (delIds : List Nat) (s e : Nat)
    (pages : List (Option (List RawMsg))) :
    ∀ m ∈ fetchMessages delIds s e pages, s ≤ m.timestamp ∧ m.timestamp ≤ e := by
  intro m hm
  exact fetchMessagesAux_mem delIds s e pages [] (by intro m' h; simp at h) m hm

/-- Claim C1: the message fetchers scan pages newest-first and classify each
message by its local timestamp: a message before the window start terminates
the scan, a message inside the closed window is retained, and a message after
the window end is skipped without terminating; consequently every returned
message has a timestamp in the closed window, a message stamped exactly at
the window end is included, and one stamped one unit after the window end is
excluded. -/
theorem C1_message_window_scan :
    (∀ s e pages m, m ∈ getChannelMessages s e pages → s ≤ m.timestamp ∧ m.timestamp ≤ e)
  ∧ (∀ delIds s e pages m, m ∈ fetchMessages delIds s e pages →
      s ≤ m.timestamp ∧ m.timestamp ≤ e)
  ∧ (∀ s e (m : RawMsg), s ≤ m.timestamp → m.timestamp ≤ e →
      getChannelMessages s e [some [m]] = [m])
  ∧ (∀ s e (ma m : RawMsg), s ≤ e → ma.timestamp = e + 1 →
      s ≤ m.timestamp → m.timestamp ≤ e →
      getChannelMessages s e [some [ma, m]] = [m])
  ∧ (∀ s e (mb : RawMsg) rest, mb.timestamp < s →
      getChannelMessages s e (some [mb] :: rest) = []) := by
  refine ⟨?_, ?_, ?_, ?_, ?_⟩
  · intro s e pages m hm; exact getChannelMessages_mem_window s e pages m hm
  · intro delIds s e pages m hm; exact fetchMessages_mem_window delIds s e pages m hm
  · intro s e m h1 h2
    have hw : inWindow s e m.timestamp = true := (inWindow_iff s e m.timestamp).mpr ⟨h1, h2⟩
    simp [getChannelMessages, getChannelMessagesAux, scanBatchB, hw]
  · intro s e ma m hse hma h1 h2
    have hwa : inWindow s e ma.timestamp = false := by
      simp [inWindow, hma]
    have hnl : ¬ ma.timestamp < s := by omega
    have hw : inWindow s e m.timestamp = true := (inWindow_iff s e m.timestamp).mpr ⟨h1, h2⟩
    simp [getChannelMessages, getChannelMessagesAux, scanBatchB, hwa, hnl, hw]
  · intro s e mb rest hlt
    have hw : inWindow s e mb.timestamp = false := by
      simp [inWindow]
      omega
    simp [getChannelMessages, getChannelMessagesAux, scanBatchB, hw, hlt]

/-- Witness for C1 at concrete inputs: a message stamped exactly at the window
end (20) is returned, and a message one unit past the end is skipped while
the scan continues to the in-window message. -/
theorem C1_message_window_scan_witness :
    getChannelMessages 10 20 [some [⟨1, 1, 20, "", none⟩]] = [⟨1, 1, 20, "", none⟩]
  ∧ getChannelMessages 10 20 [some [⟨2, 1, 21, "", none⟩, ⟨1, 1, 20, "", none⟩]]
      = [⟨1, 1, 20, "", none⟩] :=
  ⟨C1_message_window_scan.2.2.1 10 20 ⟨1, 1, 20, "", none⟩ (by decide) (by decide),
   C1_message_window_scan.2.2.2.1 10 20 ⟨2, 1, 21, "", none⟩ ⟨1, 1, 20, "", none⟩
     (by decide) rfl (by decide) (by decide)⟩

/-- Page size requested by `getAuditLogs` (the `limit = 100` default that
every call site leaves in place). -/
def auditLogPageLimit : Nat := 100

/-- Endpoint string built by `getAuditLogs` for one page request. -/
def getAuditLogsEndpoint (guildId : String) (actionType : Nat) (before : Option Nat) : String :=
  match before with
  | some b =>
    "/guilds/" ++ guildId ++ "/audit-logs?action_type=" ++ toString actionType ++
      "&limit=" ++ toString auditLogPageLimit ++ "&before=" ++ toString b
  | none =>
    "/guilds/" ++ guildId ++ "/audit-logs?action_type=" ++ toString actionType ++
      "&limit=" ++ toString auditLogPageLimit

/-- Pagination loop of `getAllAuditLogs` (identical in both server
revisions): a page is filtered to entries created at or after the window
start; if any entry of the page fails the filter the loop breaks without
keeping the page, otherwise the whole page is kept and the `before` cursor
moves to the id of its last entry.  The second component records the cursor
used for each issued request, in order. -/
def getAllAuditLogsAux (s : Nat) (acc : List AuditEntry) (cursor : Option Nat) :
    List (Option (List AuditEntry)) → List AuditEntry × List (Option Nat)
  | [] => (acc, [])
  | none :: _ => (acc, [cursor])
  | some [] :: _ => (acc, [cursor])
  | some (x :: xs) :: rest =>
    if ((x :: xs).filter (fun en => decide (s ≤ en.created_at))).length < (x :: xs).length then
      (acc, [cursor])
    else
      let r := getAllAuditLogsAux s
        (acc ++ (x :: xs).filter (fun en => decide (s ≤ en.created_at)))
        (((x :: xs).getLast?).map (fun en => en.id)) rest
      (r.1, cursor :: r.2)

/-- Entries collected by `getAllAuditLogs` for one action type. -/
def getAllAuditLogs (pages : List (Option (List AuditEntry))) (s : Nat) : List AuditEntry :=
  (getAllAuditLogsAux s [] none pages).1

/-- The `before` cursors issued by `getAllAuditLogs`, in request order. -/
def getAllAuditLogsCursors (pages : List (Option (List AuditEntry))) (s : Nat) :
    List (Option Nat) :=
  (getAllAuditLogsAux s [] none pages).2

/-- A page whose entries all qualify (created at or after the window start)
and which is nonempty: the loop keeps it whole and continues. -/
def fullAuditPage (s : Nat) (p : Option (List AuditEntry)) : Prop :=
  ∃ b, p = some b ∧ b ≠ [] ∧ ∀ en ∈ b, s ≤ en.created_at

/-- A page at which the loop terminates: a null response, an empty page, or a
page holding at least one entry created before the window start. -/
def stopAuditPage (s : Nat) (p : Option (List AuditEntry)) : Prop :=
  p = none ∨ p = some [] ∨ ∃ b, p = some b ∧ ∃ en ∈ b, en.created_at < s

theorem getAllAuditLogsAux_mem (s : Nat) :
    ∀ (pages : List (Option (List AuditEntry))) (acc : List AuditEntry) (cursor : Option Nat),
      (∀ en ∈ acc, s ≤ en.created_at) →
      ∀ en ∈ (getAllAuditLogsAux s acc cursor pages).1, s ≤ en.created_at := by
  intro pages
  induction pages with
  | nil => intro acc cursor hacc en hen; exact hacc en hen
  | cons p rest ih =>
    intro acc cursor hacc en hen
    match p with
    | none => exact hacc en (by simpa [getAllAuditLogsAux] using hen)
    | some [] => exact hacc en (by simpa [getAllAuditLogsAux] using hen)
    | some (x :: xs) =>
      rw [getAllAuditLogsAux] at hen
      by_cases hlt :
          ((x :: xs).filter (fun en => decide (s ≤ en.created_at))).length < (x :: xs).length
      · rw [if_pos hlt] at hen; exact hacc en hen
      · rw [if_neg hlt] at hen
        simp only at hen
        refine ih _ _ ?_ en hen
        intro en' hen'
        rcases List.mem_append.mp hen' with h1 | h2
        · exact hacc en' h1
        · have := List.mem_filter.mp h2
          simpa using this.2

theorem getAllAuditLogsAux_full (s : Nat) :
    ∀ (full : List (Option (List AuditEntry))) (acc : List AuditEntry) (cursor : Option Nat)
      (p0 : Option (List AuditEntry)) (rest : List (Option (List AuditEntry))),
      (∀ p ∈ full, fullAuditPage s p) → stopAuditPage s p0 →
      getAllAuditLogsAux s acc cursor (full ++ p0 :: rest)
        = (acc ++ (full.map (fun p => p.getD [])).flatten,
           cursor :: full.map (fun p => ((p.getD []).getLast?).map (fun en => en.id))) := by
  intro full
  induction full with
  | nil =>
    intro acc cursor p0 rest hfull hstop
    rcases hstop with h | h | ⟨b, hb, en, hen, hlt⟩
    · subst h; simp [getAllAuditLogsAux]
    · subst h; simp [getAllAuditLogsAux]
    · subst hb
      match b, hen with
      | x :: xs, hen =>
        have hlen : ((x :: xs).filter (fun en => decide (s ≤ en.created_at))).length
            < (x :: xs).length := by
          have hle := List.length_filter_le (fun en => decide (s ≤ en.created_at)) (x :: xs)
          rcases Nat.lt_or_ge
              (((x :: xs).filter (fun en => decide (s ≤ en.created_at))).length)
              ((x :: xs).length) with h | h
          · exact h
          · exfalso
            have heq : (x :: xs).filter (fun en => decide (s ≤ en.created_at)) = x :: xs := by
              exact List.Sublist.eq_of_length_le (List.filter_sublist _) h
            have : en ∈ (x :: xs).filter (fun en => decide (s ≤ en.created_at)) := by
              rw [heq]; exact hen
            have := (List.mem_filter.mp this).2
            simp at this
            omega
        rw [List.nil_append, getAllAuditLogsAux, if_pos hlen]
        simp
  | cons p ps ih =>
    intro acc cursor p0 rest hfull hstop
    obtain ⟨b, hb, hne, hall⟩ := hfull p (List.mem_cons_self p ps)
    subst hb
    match b, hne with
    | x :: xs, hne =>
      have hfe : (x :: xs).filter (fun en => decide (s ≤ en.created_at)) = x :: xs := by
        apply List.filter_eq_self.mpr
        intro a ha
        simpa using hall a ha
      have hnlt : ¬ ((x :: xs).filter (fun en => decide (s ≤ en.created_at))).length
          < (x :: xs).length := by
        rw [hfe]
        exact Nat.lt_irrefl _
      rw [List.cons_append, getAllAuditLogsAux, if_neg hnlt]
      simp only [hfe]
      rw [ih (acc ++ (x :: xs)) _ p0 rest (fun q hq => hfull q (List.mem_cons_of_mem _ hq)) hstop]
      simp

/-- Claim C4: `getAllAuditLogs` pages backward by entry id at 100 entries per
page, returns only entries created at or after the window start, keeps every
entry of each fully qualifying page, and terminates at the first page that is
null, empty, or contains an entry created before the window start.  The
cursor trace starts with no cursor and then repeats the id of the last entry
of each fully consumed page. -/
theorem C4_audit_log_pagination :
    (∀ pages s, ∀ en ∈ getAllAuditLogs pages s, s ≤ en.created_at)
  ∧ (∀ s (full : List (Option (List AuditEntry))) p0 rest,
      (∀ p ∈ full, fullAuditPage s p) → stopAuditPage s p0 →
      getAllAuditLogs (full ++ p0 :: rest) s = (full.map (fun p => p.getD [])).flatten)
  ∧ (∀ s (full : List (Option (List AuditEntry))) p0 rest,
      (∀ p ∈ full, fullAuditPage s p) → stopAuditPage s p0 →
      getAllAuditLogsCursors (full ++ p0 :: rest) s
        = none :: full.map (fun p => ((p.getD []).getLast?).map (fun en => en.id)))
  ∧ auditLogPageLimit = 100 := by
  refine ⟨?_, ?_, ?_, rfl⟩
  · intro pages s en hen
    exact getAllAuditLogsAux_mem s pages [] none (by intro x hx; simp at hx) en hen
  · intro s full p0 rest hfull hstop
    unfold getAllAuditLogs
    rw [getAllAuditLogsAux_full s full [] none p0 rest hfull hstop]
    simp
  · intro s full p0 rest hfull hstop
    unfold getAllAuditLogsCursors
    rw [getAllAuditLogsAux_full s full [] none p0 rest hfull hstop]

/-- Witness for C4: one fully qualifying page followed by a page holding an
entry created before the window start yields exactly the first page, and the
cursor trace is the initial cursorless request followed by the last id of the
first page. -/
theorem C4_audit_log_pagination_witness :
    getAllAuditLogs [some [⟨7, 1, 50, none⟩], some [⟨4, 2, 3, none⟩]] 10 = [⟨7, 1, 50, none⟩]
  ∧ getAllAuditLogsCursors [some [⟨7, 1, 50, none⟩], some [⟨4, 2, 3, none⟩]] 10
      = [none, some 7] := by
  constructor
  · have h := C4_audit_log_pagination.2.1 10 [some [⟨7, 1, 50, none⟩]]
      (some [⟨4, 2, 3, none⟩]) []
      (by intro p hp; simp at hp; subst hp
          exact ⟨[⟨7, 1, 50, none⟩], rfl, by simp, by intro en hen; simp at hen; subst hen; simp⟩)
      (Or.inr (Or.inr ⟨[⟨4, 2, 3, none⟩], rfl, ⟨4, 2, 3, none⟩, by simp, by simp⟩))
    simpa using h
  · have h := C4_audit_log_pagination.2.2.1 10 [some [⟨7, 1, 50, none⟩]]
      (some [⟨4, 2, 3, none⟩]) []
      (by intro p hp; simp at hp; subst hp
          exact ⟨[⟨7, 1, 50, none⟩], rfl, by simp, by intro en hen; simp at hen; subst hen; simp⟩)
      (Or.inr (Or.inr ⟨[⟨4, 2, 3, none⟩], rfl, ⟨4, 2, 3, none⟩, by simp, by simp⟩))
    simpa using h

/-- A guild member from the member listing; `joined_at` is `none` when the
field is missing from the payload. -/
structure Member where
  user_id : Nat
  joined_at : Option Nat
  deriving DecidableEq

/-- Join-date check used by the historical branch of backend.js
`getTotalMembers`: `adjustToLocalTime(member.joined_at).isSameOrBefore(endDate)`.
A missing `joined_at` yields an invalid moment, and every comparison on an
invalid moment returns false, which the server revisions make explicit with a
`!member.joined_at` guard; both behave as the `none` branch here. -/
def memberJoinedOnOrBefore (m : Member) (e : Nat) : Bool :=
  match m.joined_at with
  | some j => decide (j ≤ e)
  | none => false

/-- Remote guild state consumed by the member metrics: the live approximate
count, the live member listing (`getAllMembers` / `getAllGuildMembers`
result) and the audit-log page streams for joins and leaves. -/
structure GuildEnv where
  approx_member_count : Nat
  members : List Member
  joinPages : List (Option (List AuditEntry))
  leavePages : List (Option (List AuditEntry))

/-- backend.js `isWeekInProgress`: `moment().isBefore(endDate)`. -/
def isWeekInProgressB (now e : Nat) : Bool := decide (now < e)

/-- Second-server-revision `isWeekInProgress`: `moment().isSameOrBefore(endDate)`. -/
def isWeekInProgressS (now e : Nat) : Bool := decide (now ≤ e)

/-- backend.js `getTotalMembers`: live approximate count while the week is in
progress, otherwise the live member listing filtered by join date. -/
def backendGetTotalMembers (g : GuildEnv) (now e : Nat) : Nat :=
  if isWeekInProgressB now e then g.approx_member_count
  else (g.members.filter (fun m => memberJoinedOnOrBefore m e)).length

/-- Second-server-revision `getHistoricalMemberCount`: start from the live
approximate count, decrement for each join audit entry after the window end
and increment for each leave audit entry after the window end. -/
def getHistoricalMemberCount (g : GuildEnv) (e : Nat) : Int :=
  (g.approx_member_count : Int)
    - ((getAllAuditLogs g.joinPages e).filter (fun en => decide (e < en.created_at))).length
    + ((getAllAuditLogs g.leavePages e).filter (fun en => decide (e < en.created_at))).length

/-- Second-server-revision `getTotalMembers`: live approximate count while the
week is in progress, otherwise the audit-log walk-back reconstruction. -/
def serverGetTotalMembers2 (g : GuildEnv) (now e : Nat) : Int :=
  if isWeekInProgressS now e then (g.approx_member_count : Int)
  else getHistoricalMemberCount g e

/-- First-server-revision `getMemberLeaves`: leave audit entries restricted to
the closed window. -/
def getMemberLeaves (g : GuildEnv) (s e : Nat) : List AuditEntry :=
  (getAllAuditLogs g.leavePages s).filter
    (fun en => decide (s ≤ en.created_at) && decide (en.created_at ≤ e))

/-- Leave date looked up in the `memberLeaves` map of the first server
revision; the map is filled by a forEach, so the last matching entry wins. -/
def leaveDateOf (leaves : List AuditEntry) (uid : Nat) : Option Nat :=
  ((leaves.filter (fun l => l.target_id == uid)).getLast?).map (fun l => l.created_at)

/-- Membership test of the first-server-revision `getTotalMembers` filter: the
member must have joined on or before the window end and must not have a
recorded leave on or before the window end. -/
def serverMember1Counted (leaves : List AuditEntry) (e : Nat) (m : Member) : Bool :=
  match m.joined_at with
  | none => false
  | some j =>
    decide (j ≤ e) &&
      (match leaveDateOf leaves m.user_id with
       | some ld => ! decide (ld ≤ e)
       | none => true)

/-- First-server-revision `getTotalMembers`: counts the filtered live member
listing plus the in-window leavers absent from the listing.  Note that this
revision never consults the clock or the approximate count. -/
def serverGetTotalMembers1 (g : GuildEnv) (s e : Nat) : Nat :=
  (g.members.filter (serverMember1Counted (getMemberLeaves g s e) e)).length
    + ((getMemberLeaves g s e).filter (fun l =>
        (g.members.find? (fun m => m.user_id == l.target_id)).isNone
          && decide (s ≤ l.created_at) && decide (l.created_at ≤ e))).length

/-- Counterexample to claim C3 as stated: the first-server-revision
`getTotalMembers` (server.js lines 197 to 247) never takes the fast path.
With the collection clock at 3, a window ending at 10 is still in the future,
yet the function reconstructs from the (empty) member listing and returns 0
instead of the live approximate count 5. -/
theorem C3_total_members_counterexample :
    (3 : Nat) < 10
  ∧ ({ approx_member_count := 5, members := [], joinPages := [],
        leavePages := [] } : GuildEnv).approx_member_count = 5
  ∧ serverGetTotalMembers1
      { approx_member_count := 5, members := [], joinPages := [], leavePages := [] } 0 10 = 0 := by
  refine ⟨by omega, rfl, rfl⟩

/-- Claim C3, amended: backend.js `getTotalMembers` and the second server
revision return the live approximate member count whenever the window end is
still in the future, and reconstruct the historical count (from the member
listing, respectively the join and leave audit logs) once the window end has
passed; the first server revision always reconstructs from the member listing
and leave audit logs and is insensitive to the live approximate count. -/
theorem C3_total_members_fast_path :
    (∀ g now e, now < e → backendGetTotalMembers g now e = g.approx_member_count)
  ∧ (∀ g now e, now < e → serverGetTotalMembers2 g now e = (g.approx_member_count : Int))
  ∧ (∀ g now e, e < now → backendGetTotalMembers g now e
      = (g.members.filter (fun m => memberJoinedOnOrBefore m e)).length)
  ∧ (∀ g now e, e < now → serverGetTotalMembers2 g now e = getHistoricalMemberCount g e)
  ∧ (∀ g s e n, serverGetTotalMembers1 { g with approx_member_count := n } s e
      = serverGetTotalMembers1 g s e) := by
  refine ⟨?_, ?_, ?_, ?_, ?_⟩
  · intro g now e h
    simp [backendGetTotalMembers, isWeekInProgressB, h]
  · intro g now e h
    simp [serverGetTotalMembers2, isWeekInProgressS, Nat.le_of_lt h]
  · intro g now e h
    have : ¬ now < e := by omega
    simp [backendGetTotalMembers, isWeekInProgressB, this]
  · intro g now e h
    have : ¬ now ≤ e := by omega
    simp [serverGetTotalMembers2, isWeekInProgressS, this]
  · intro g s e n
    rfl

/-- Witness for the amended C3 at concrete inputs: with the clock at 3 and the
window ending at 10 both fast-path variants return the approximate count, and
with the clock at 20 the backend variant reconstructs from the listing. -/
theorem C3_total_members_fast_path_witness :
    backendGetTotalMembers
      { approx_member_count := 5, members := [⟨1, some 4⟩], joinPages := [],
        leavePages := [] } 3 10 = 5
  ∧ serverGetTotalMembers2
      { approx_member_count := 5, members := [⟨1, some 4⟩], joinPages := [],
        leavePages := [] } 3 10 = (5 : Int)
  ∧ backendGetTotalMembers
      { approx_member_count := 5, members := [⟨1, some 4⟩], joinPages := [],
        leavePages := [] } 20 10 = 1 := by
  refine ⟨?_, ?_, ?_⟩
  · exact C3_total_members_fast_path.1 _ 3 10 (by omega)
  · exact C3_total_members_fast_path.2.1 _ 3 10 (by omega)
  · rw [C3_total_members_fast_path.2.2.1 _ 20 10 (by omega)]
    rfl

/-- Membership test of `getNewMembers` (backend.js and the first server
revision): the join timestamp must lie in the closed window; a missing
`joined_at` fails the test (explicitly in the server revision, and through
invalid-moment comparisons returning false in backend.js). -/
def isNewMember (s e : Nat) (m : Member) : Bool :=
  match m.joined_at with
  | some j => decide (s ≤ j) && decide (j ≤ e)
  | none => false

/-- `getNewMembers` of backend.js and the first server revision over the
fetched member listing. -/
def getNewMembersM (members : List Member) (s e : Nat) : Nat :=
  (members.filter (isNewMember s e)).length

/-- Claim C6: a member whose join timestamp equals the window end is counted
by the historical total-members filter; a member with a join timestamp is
excluded from the new-members count exactly when the timestamp lies outside
the closed window; and a join timestamp exactly at the window start is
counted as a new member. -/
theorem C6_member_boundaries :
    (∀ (g : GuildEnv) (now e : Nat) (m : Member), e ≤ now → m ∈ g.members →
        m.joined_at = some e →
        backendGetTotalMembers g now e
          = (g.members.filter (fun mb => memberJoinedOnOrBefore mb e)).length
      ∧ m ∈ g.members.filter (fun mb => memberJoinedOnOrBefore mb e))
  ∧ (∀ s e (m : Member) j, m.joined_at = some j →
      (isNewMember s e m = false ↔ (j < s ∨ e < j)))
  ∧ (∀ s e (m : Member), s ≤ e → m.joined_at = some s → isNewMember s e m = true)
  ∧ (∀ members s e, getNewMembersM members s e = (members.filter (isNewMember s e)).length) := by
  refine ⟨?_, ?_, ?_, fun _ _ _ => rfl⟩
  · intro g now e m hnow hm hj
    constructor
    · have : ¬ now < e := by omega
      simp [backendGetTotalMembers, isWeekInProgressB, this]
    · exact List.mem_filter.mpr ⟨hm, by simp [memberJoinedOnOrBefore, hj]⟩
  · intro s e m j hj
    simp [isNewMember, hj]
    omega
  · intro s e m hse hj
    simp [isNewMember, hj, hse]

/-- Witness for C6 at concrete inputs: joining exactly at the window end (10)
keeps the member in the historical total, and joining exactly at the window
start (4) makes the member a new member. -/
theorem C6_member_boundaries_witness :
    (⟨1, some 10⟩ : Member) ∈
      List.filter (fun mb => memberJoinedOnOrBefore mb 10) [⟨1, some 10⟩]
  ∧ isNewMember 4 10 ⟨2, some 4⟩ = true :=
  ⟨(C6_member_boundaries.1
      { approx_member_count := 0, members := [⟨1, some 10⟩], joinPages := [], leavePages := [] }
      10 10 ⟨1, some 10⟩ (by omega) (by simp) rfl).2,
   C6_member_boundaries.2.2.1 4 10 ⟨2, some 4⟩ (by omega) rfl⟩

/-- Channel type constant `CHANNEL_TYPES.TEXT`. -/
def channelTypeText : Nat := 0

/-- Channel type constant `CHANNEL_TYPES.PUBLIC_THREAD` (also used as
`FORUM_POST`). -/
def channelTypePublicThread : Nat := 11

/-- Channel type constant `CHANNEL_TYPES.FORUM`. -/
def channelTypeForum : Nat := 15

/-- Channel metadata returned by `GET /channels/id`; `isThread` models the
truthiness of `thread_metadata`. -/
structure ChannelInfo where
  type : Nat
  isThread : Bool
  deriving DecidableEq

/-- A thread as listed by the active or archived thread endpoints, together
with the message pages its own fetch would return. -/
structure ThreadData where
  id : Nat
  creation_timestamp : Nat
  pages : List (Option (List RawMsg))
  deriving DecidableEq

/-- Remote state of one channel as consumed by the first-server-revision
`getAllChannelMessages`: the id and type from the guild channel listing, the
channel-info lookup (`none` models a tolerated 403), its own message pages,
and the three thread listings (each `none` when the endpoint answered 403). -/
structure ChannelData where
  id : Nat
  type : Nat
  info : Option ChannelInfo
  mainPages : List (Option (List RawMsg))
  activeThreads : Option (List ThreadData)
  archivedPublic : Option (List ThreadData)
  archivedPrivate : Option (List ThreadData)
  deriving DecidableEq

/-- Ids of messages deleted in a given channel, from the message-delete audit
entries whose `options.channel_id` matches. -/
def deleteIdsForChannel (dels : List AuditEntry) (chId : Nat) : List Nat :=
  (dels.filter (fun l => l.channel_id == some chId)).map (fun l => l.target_id)

/-- Messages of every thread of an (optional) thread listing. -/
def threadMessages (delIds : List Nat) (s e : Nat) (ts : Option (List ThreadData)) : List Msg :=
  match ts with
  | some l => (l.map (fun t => fetchMessages delIds s e t.pages)).flatten
  | none => []

/-- Messages of the archived threads created at or after the window start
(`moment(thread.thread_metadata.creation_timestamp).isSameOrAfter(startDate)`). -/
def archivedThreadMessages (delIds : List Nat) (s e : Nat)
    (ts : Option (List ThreadData)) : List Msg :=
  match ts with
  | some l =>
    ((l.filter (fun t => decide (s ≤ t.creation_timestamp))).map
      (fun t => fetchMessages delIds s e t.pages)).flatten
  | none => []

/-- The `[TEXT, FORUM, PUBLIC_THREAD].includes(channelInfo.type)` guard. -/
def canHaveThreads (ty : Nat) : Bool :=
  (ty == channelTypeText) || (ty == channelTypeForum) || (ty == channelTypePublicThread)

/-- First-server-revision `getAllChannelMessages`: builds the deleted-message
map from the message-delete audit log, fetches the main channel messages and,
for thread-capable non-thread channels, the active and the qualifying
archived public and private threads. -/
def getAllChannelMessages (deletePages : List (Option (List AuditEntry)))
    (ch : ChannelData) (s e : Nat) : List Msg :=
  match ch.info with
  | none => []
  | some info =>
    fetchMessages (deleteIdsForChannel (getAllAuditLogs deletePages s) ch.id) s e ch.mainPages
      ++ (if canHaveThreads info.type && ! info.isThread then
            threadMessages (deleteIdsForChannel (getAllAuditLogs deletePages s) ch.id) s e
              ch.activeThreads
          else [])
      ++ (if canHaveThreads info.type && ! info.isThread then
            archivedThreadMessages (deleteIdsForChannel (getAllAuditLogs deletePages s) ch.id)
                s e ch.archivedPublic
              ++ archivedThreadMessages (deleteIdsForChannel (getAllAuditLogs deletePages s) ch.id)
                s e ch.archivedPrivate
          else [])

/-- Remote guild state consumed by the message metrics. -/
structure GuildChannels where
  channels : List ChannelData
  deletePages : List (Option (List AuditEntry))

/-- `isMessageableChannel`: plain text or forum channels. -/
def isMessageableChannel (c : ChannelData) : Bool :=
  (c.type == channelTypeText) || (c.type == channelTypeForum)

/-- First-server-revision `getMessagesPosted`: non-deleted messages of every
messageable channel plus the message-delete audit entries whose deletion time
falls in the closed window. -/
def getMessagesPosted (g : GuildChannels) (s e : Nat) : Nat :=
  ((g.channels.filter isMessageableChannel).map (fun ch =>
      ((getAllChannelMessages g.deletePages ch s e).filter (fun m => ! m.deleted)).length)).sum
    + ((getAllAuditLogs g.deletePages s).filter (fun en =>
        decide (s ≤ en.created_at) && decide (en.created_at ≤ e))).length

/-- Reaction-count sum of one message (`msg.reactions.reduce(sum + r.count)`). -/
def reactionTotal (m : Msg) : Nat :=
  match m.reactions with
  | some rs => rs.sum
  | none => 0

/-- Per-message contribution in `getReactions`:
`if (msg.reactions && !msg.deleted) add the reaction-count sum`. -/
def msgReactionContribution (m : Msg) : Nat :=
  match m.reactions with
  | some rs => if m.deleted then 0 else rs.sum
  | none => 0

/-- First-server-revision `getReactions` over the messageable channels. -/
def getReactions (g : GuildChannels) (s e : Nat) : Nat :=
  ((g.channels.filter isMessageableChannel).map (fun ch =>
      ((getAllChannelMessages g.deletePages ch s e).map msgReactionContribution).sum)).sum

theorem threadMessages_mem (delIds : List Nat) (s e : Nat)
    (ts : Option (List ThreadData)) :
    ∀ m ∈ threadMessages delIds s e ts, s ≤ m.timestamp ∧ m.timestamp ≤ e := by
  intro m hm
  match ts with
  | none => simp [threadMessages] at hm
  | some l =>
    simp only [threadMessages, List.mem_flatten, List.mem_map] at hm
    obtain ⟨ms, ⟨t, ht, rfl⟩, hmem⟩ := hm
    exact fetchMessages_mem_window delIds s e t.pages m hmem

theorem archivedThreadMessages_mem (delIds : List Nat) (s e : Nat)
    (ts : Option (List ThreadData)) :
    ∀ m ∈ archivedThreadMessages delIds s e ts, s ≤ m.timestamp ∧ m.timestamp ≤ e := by
  intro m hm
  match ts with
  | none => simp [archivedThreadMessages] at hm
  | some l =>
    simp only [archivedThreadMessages, List.mem_flatten, List.mem_map] at hm
    obtain ⟨ms, ⟨t, ht, rfl⟩, hmem⟩ := hm
    exact fetchMessages_mem_window delIds s e t.pages m hmem

/-- Every message produced by the server-revision channel fetcher, threads
included, lies in the closed window. -/
theorem getAllChannelMessages_mem_window (deletePages : List (Option (List AuditEntry)))
    (ch : ChannelData) (s e : Nat) :
    ∀ m ∈ getAllChannelMessages deletePages ch s e, s ≤ m.timestamp ∧ m.timestamp ≤ e := by
  intro m hm
  unfold getAllChannelMessages at hm
  match hinfo : ch.info with
  | none => rw [hinfo] at hm; simp at hm
  | some info =>
    rw [hinfo] at hm
    rcases List.mem_append.mp hm with h1 | h2
    · rcases List.mem_append.mp h1 with h3 | h4
      · exact fetchMessages_mem_window _ s e ch.mainPages m h3
      · by_cases hg : canHaveThreads info.type && ! info.isThread
        · rw [if_pos hg] at h4
          exact threadMessages_mem _ s e ch.activeThreads m h4
        · rw [if_neg hg] at h4; simp at h4
    · by_cases hg : canHaveThreads info.type && ! info.isThread
      · rw [if_pos hg] at h2
        rcases List.mem_append.mp h2 with h5 | h6
        · exact archivedThreadMessages_mem _ s e ch.archivedPublic m h5
        · exact archivedThreadMessages_mem _ s e ch.archivedPrivate m h6
      · rw [if_neg hg] at h2; simp at h2

theorem sum_contribution_eq_filtered (l : List Msg) :
    (l.map msgReactionContribution).sum
      = ((l.filter (fun m => ! m.deleted)).map reactionTotal).sum := by
  induction l with
  | nil => rfl
  | cons m rest ih =>
    by_cases hd : m.deleted
    · have hc : msgReactionContribution m = 0 := by
        unfold msgReactionContribution
        match m.reactions with
        | some rs => simp [hd]
        | none => rfl
      simp [hd, hc, ih]
    · have hc : msgReactionContribution m = reactionTotal m := by
        unfold msgReactionContribution reactionTotal
        match m.reactions with
        | some rs => simp [hd]
        | none => rfl
      simp [hd, hc, ih]

/-- Claim C2: the messages-posted metric counts the non-deleted in-window
messages of all messageable channels plus the audit-logged deletions whose
deletion timestamp falls in the window, and a deleted message contributes
zero reactions (reactions are summed only over non-deleted messages). -/
theorem C2_messages_posted_and_reactions :
    (∀ (g : GuildChannels) (s e : Nat),
      getMessagesPosted g s e
        = ((g.channels.filter isMessageableChannel).map (fun ch =>
            ((getAllChannelMessages g.deletePages ch s e).filter
              (fun m => ! m.deleted && inWindow s e m.timestamp)).length)).sum
          + ((getAllAuditLogs g.deletePages s).filter (fun en =>
              decide (s ≤ en.created_at) && decide (en.created_at ≤ e))).length)
  ∧ (∀ m : Msg, m.deleted = true → msgReactionContribution m = 0)
  ∧ (∀ (g : GuildChannels) (s e : Nat),
      getReactions g s e
        = ((g.channels.filter isMessageableChannel).map (fun ch =>
            (((getAllChannelMessages g.deletePages ch s e).filter (fun m => ! m.deleted)).map
              reactionTotal).sum)).sum) := by
  refine ⟨?_, ?_, ?_⟩
  · intro g s e
    unfold getMessagesPosted
    congr 1
    congr 1
    apply List.map_congr_left
    intro ch hch
    congr 1
    apply List.filter_congr
    intro m hm
    have hw := (getAllChannelMessages_mem_window g.deletePages ch s e m hm)
    have : inWindow s e m.timestamp = true := (inWindow_iff s e m.timestamp).mpr hw
    rw [this, Bool.and_true]
  · intro m hd
    unfold msgReactionContribution
    match m.reactions with
    | some rs => simp [hd]
    | none => rfl
  · intro g s e
    unfold getReactions
    apply congrArg
    apply List.map_congr_left
    intro ch hch
    exact sum_contribution_eq_filtered _

/-- Witness for C2 at a concrete input: a deleted message carrying reactions
contributes zero to the reactions metric. -/
theorem C2_messages_posted_and_reactions_witness :
    msgReactionContribution { toRawMsg := ⟨1, 1, 5, "", some [3, 4]⟩, deleted := true } = 0 :=
  C2_messages_posted_and_reactions.2.1 _ rfl

/-- One HTTP response as seen by `makeDiscordRequest`: the status code, the
`retry_after` field of the decoded body (read only on 429, in seconds) and
the decoded body itself. -/
structure HttpResponse (α : Type) where
  status : Nat
  retry_after : Nat
  body : α

/-- Outcome of `makeDiscordRequest`: a decoded body, the `null` marker for a
tolerated 403, a thrown `Discord API Error` carrying the status, or
`pending` when the modelled response list ran out while the loop was still
retrying (the JS loop would simply still be waiting). -/
inductive ReqOutcome (α : Type) where
  | success (a : α)
  | forbiddenNull
  | apiError (status : Nat)
  | pending
  deriving DecidableEq

/-- The `response.ok` test: status in the 200 to 299 range. -/
def responseOk (st : Nat) : Bool := decide (200 ≤ st) && decide (st ≤ 299)

/-- `makeDiscordRequest` (backend.js and the server revisions share this
logic): loop over the responses the remote produces; on 429 sleep
`retry_after` seconds (recorded in the second component) and retry; on 403
with the caller opt-in return the null marker; on any other non-ok status
throw; on an ok status return the body. -/
def makeDiscordRequest {α : Type} (ignore403 : Bool) :
    List (HttpResponse α) → ReqOutcome α × List Nat
  | [] => (ReqOutcome.pending, [])
  | r :: rest =>
    if r.status = 429 then
      ((makeDiscordRequest ignore403 rest).1,
        r.retry_after :: (makeDiscordRequest ignore403 rest).2)
    else if r.status = 403 ∧ ignore403 = true then (ReqOutcome.forbiddenNull, [])
    else if responseOk r.status = false then (ReqOutcome.apiError r.status, [])
    else (ReqOutcome.success r.body, [])

/-- Claim C9: the request client loops with no maximum retry count, sleeping
the server-specified number of seconds on every 429 and retrying the same
request; a 403 with the caller opt-in returns null; any other non-success
status throws an error carrying the status; success returns the decoded
body. -/
theorem C9_request_client :
    (∀ (α : Type) (ignore403 : Bool) (r : HttpResponse α) rest, r.status = 429 →
      makeDiscordRequest ignore403 (r :: rest)
        = ((makeDiscordRequest ignore403 rest).1,
           r.retry_after :: (makeDiscordRequest ignore403 rest).2))
  ∧ (∀ (α : Type) (ignore403 : Bool) (n ra : Nat) (b : α) rest,
      makeDiscordRequest ignore403 (List.replicate n ⟨429, ra, b⟩ ++ rest)
        = ((makeDiscordRequest ignore403 rest).1,
           List.replicate n ra ++ (makeDiscordRequest ignore403 rest).2))
  ∧ (∀ (α : Type) (r : HttpResponse α) rest, r.status = 403 →
      makeDiscordRequest true (r :: rest) = (ReqOutcome.forbiddenNull, []))
  ∧ (∀ (α : Type) (ignore403 : Bool) (r : HttpResponse α) rest, r.status ≠ 429 →
      ¬ (r.status = 403 ∧ ignore403 = true) → responseOk r.status = false →
      makeDiscordRequest ignore403 (r :: rest) = (ReqOutcome.apiError r.status, []))
  ∧ (∀ (α : Type) (ignore403 : Bool) (r : HttpResponse α) rest, responseOk r.status = true →
      makeDiscordRequest ignore403 (r :: rest) = (ReqOutcome.success r.body, [])) := by
  refine ⟨?_, ?_, ?_, ?_, ?_⟩
  · intro α ignore403 r rest h
    rw [makeDiscordRequest, if_pos h]
  · intro α ignore403 n ra b rest
    induction n with
    | zero => simp
    | succ k ih =>
      rw [List.replicate_succ, List.cons_append, makeDiscordRequest, if_pos rfl, ih]
      simp [List.replicate_succ]
  · intro α r rest h
    rw [makeDiscordRequest, if_neg (by omega), if_pos ⟨h, rfl⟩]
  · intro α ignore403 r rest h429 h403 hok
    rw [makeDiscordRequest, if_neg h429, if_neg h403, if_pos hok]
  · intro α ignore403 r rest hok
    have hle : r.status ≤ 299 := by
      have := (Bool.and_eq_true _ _).mp hok
      simpa using this.2
    have h429 : ¬ r.status = 429 := by omega
    have h403 : ¬ (r.status = 403 ∧ ignore403 = true) := by
      rintro ⟨h, _⟩; omega
    rw [makeDiscordRequest, if_neg h429, if_neg h403, if_neg (by rw [hok]; simp)]

/-- Witness for C9 at concrete inputs: two 429 responses sleeping 2 and 3
seconds are retried and the third response succeeds; a 403 with the opt-in
flag returns the null marker; a 500 throws carrying the status. -/
theorem C9_request_client_witness :
    makeDiscordRequest false
        [(⟨429, 2, 7⟩ : HttpResponse Nat), ⟨429, 3, 7⟩, ⟨200, 0, 9⟩]
      = (ReqOutcome.success 9, [2, 3])
  ∧ makeDiscordRequest true [(⟨403, 0, 0⟩ : HttpResponse Nat)] = (ReqOutcome.forbiddenNull, [])
  ∧ makeDiscordRequest false [(⟨500, 0, 0⟩ : HttpResponse Nat)]
      = (ReqOutcome.apiError 500, []) := by
  refine ⟨?_, ?_, ?_⟩
  · have h2 := C9_request_client.2.1 Nat false 2 2 7 [(⟨200, 0, 9⟩ : HttpResponse Nat)]
    have h1 := C9_request_client.1 Nat false (⟨429, 3, 7⟩ : HttpResponse Nat)
      [⟨200, 0, 9⟩] rfl
    have hs := C9_request_client.2.2.2.2 Nat false (⟨200, 0, 9⟩ : HttpResponse Nat) [] (by decide)
    rw [C9_request_client.1 Nat false (⟨429, 2, 7⟩ : HttpResponse Nat)
      [⟨429, 3, 7⟩, ⟨200, 0, 9⟩] rfl, h1, hs]
  · exact C9_request_client.2.2.1 Nat (⟨403, 0, 0⟩ : HttpResponse Nat) [] rfl
  · exact C9_request_client.2.2.2.1 Nat false (⟨500, 0, 0⟩ : HttpResponse Nat) []
      (by decide) (by decide) (by decide)

/-- A page at which the backend message loop neither breaks nor returns: a
nonempty batch whose messages are all at or after the window start. -/
def pageContinues (s : Nat) (p : Option (List RawMsg)) : Prop :=
  ∃ b, p = some b ∧ b ≠ [] ∧ ∀ m ∈ b, s ≤ m.timestamp

theorem scanBatchB_no_stop (s e : Nat) :
    ∀ (b : List RawMsg), (∀ m ∈ b, s ≤ m.timestamp) → (scanBatchB s e b).2 = false := by
  intro b
  induction b with
  | nil => intro h; rfl
  | cons x rest ih =>
    intro h
    have hx : s ≤ x.timestamp := h x (List.mem_cons_self x rest)
    have hrest : ∀ m ∈ rest, s ≤ m.timestamp := fun m hm => h m (List.mem_cons_of_mem x hm)
    by_cases hw : inWindow s e x.timestamp
    · rw [scanBatchB, if_pos hw]
      exact ih hrest
    · rw [scanBatchB, if_neg hw, if_neg (by omega)]
      exact ih hrest

theorem getChannelMessagesAux_null_page (s e : Nat) :
    ∀ (pages1 : List (Option (List RawMsg))) (acc : List RawMsg)
      (rest : List (Option (List RawMsg))),
      (∀ p ∈ pages1, pageContinues s p) →
      getChannelMessagesAux s e acc (pages1 ++ none :: rest) = [] := by
  intro pages1
  induction pages1 with
  | nil => intro acc rest h; rfl
  | cons p ps ih =>
    intro acc rest h
    obtain ⟨b, hb, hne, hall⟩ := h p (List.mem_cons_self p ps)
    subst hb
    match b, hne with
    | x :: xs, hne =>
      have hns : (scanBatchB s e (x :: xs)).2 = false := scanBatchB_no_stop s e _ hall
      rw [List.cons_append, getChannelMessagesAux, hns]
      simp only [Bool.false_eq_true, if_false]
      exact ih _ rest (fun q hq => h q (List.mem_cons_of_mem _ hq))

/-- Claim C10: if any page request during backend message pagination returns
the tolerated-403 null marker, `getChannelMessages` returns the empty list
immediately, discarding everything accumulated from the earlier pages. -/
theorem C10_null_page_discards :
    ∀ (s e : Nat) (pages1 rest : List (Option (List RawMsg))),
      (∀ p ∈ pages1, pageContinues s p) →
      getChannelMessages s e (pages1 ++ none :: rest) = [] := by
  intro s e pages1 rest h
  exact getChannelMessagesAux_null_page s e pages1 [] rest h

/-- Witness for C10 at a concrete input: the first page holds an in-window
message (which alone would be returned), yet the null second page makes the
whole fetch empty. -/
theorem C10_null_page_discards_witness :
    getChannelMessages 0 10 [some [⟨1, 1, 5, "", none⟩], none] = []
  ∧ getChannelMessages 0 10 [some [⟨1, 1, 5, "", none⟩]] = [⟨1, 1, 5, "", none⟩] :=
  ⟨C10_null_page_discards 0 10 [some [⟨1, 1, 5, "", none⟩]] []
      (by
        intro p hp
        simp at hp
        subst hp
        exact ⟨[⟨1, 1, 5, "", none⟩], rfl, by simp, by
          intro m hm; simp at hm; subst hm; simp⟩),
   by decide⟩

/-- The metrics snapshot written to the sheet. -/
structure Metrics where
  totalMembers : Nat
  newMembers : Nat
  activeUsers : Nat
  messagesPosted : Nat
  reactions : Nat
  projectsShowcased : Nat
  projectLinks : List String

/-- The 8-column row written for one week
(`[weekRange, totalMembers, ..., projectLinks.join(backslash n)]`); numeric
cells are rendered to strings in this cell model. -/
def buildRow (weekRange : String) (m : Metrics) : List String :=
  [weekRange, toString m.totalMembers, toString m.newMembers, toString m.activeUsers,
   toString m.messagesPosted, toString m.reactions, toString m.projectsShowcased,
   String.intercalate "\n" m.projectLinks]

/-- The `row[0] === weekRange` test of `findIndex`; an empty row has
`row[0] === undefined`, which never equals a string. -/
def rowMatches (weekRange : String) (row : List String) : Bool := row.head? == some weekRange

/-- JS `Array.findIndex`: the 0-based index of the first matching element,
with `none` standing for the -1 returned when nothing matches. -/
def findRowIndex (p : List String → Bool) : List (List String) → Option Nat
  | [] => none
  | r :: rest => if p r then some 0 else (findRowIndex p rest).map (fun j => j + 1)

/-- Grow the sheet with empty rows up to length `n` (writing past the last
row of a sheet creates the rows in between). -/
def padTo (rows : List (List String)) (n : Nat) : List (List String) :=
  rows ++ List.replicate (n - rows.length) []

/-- Write one row at 0-based index `i`, growing the sheet if needed. -/
def setRow (rows : List (List String)) (i : Nat) (r : List String) : List (List String) :=
  (padTo rows (i + 1)).set i r

/-- Write consecutive rows starting at 0-based index `i` (one
`values.update` over a multi-row range). -/
def writeRows (rows : List (List String)) (i : Nat) :
    List (List String) → List (List String)
  | [] => rows
  | v :: vs => writeRows (setRow rows i v) (i + 1) vs

/-- server.js `updateGoogleSheet`: overwrite the matching row in place if the
label exists, otherwise write the new row at sheet row 2 (index 1) and then
rewrite the old rows 2.. (the original `rows.slice(1)`) starting at sheet
row 3 (index 2). -/
def serverUpdateGoogleSheet (sheet : List (List String)) (weekRange : String)
    (m : Metrics) : List (List String) :=
  match findRowIndex (rowMatches weekRange) sheet with
  | some i => writeRows sheet i [buildRow weekRange m]
  | none =>
    if sheet.length > 1 then
      writeRows (writeRows sheet 1 [buildRow weekRange m]) 2 (sheet.drop 1)
    else writeRows sheet 1 [buildRow weekRange m]

/-- backend.js `updateGoogleSheet`: overwrite the matching row in place if the
label exists, otherwise use `rowIndex = rows.length`, writing the new row
after the last existing row. -/
def backendUpdateGoogleSheet (sheet : List (List String)) (weekRange : String)
    (m : Metrics) : List (List String) :=
  match findRowIndex (rowMatches weekRange) sheet with
  | some i => writeRows sheet i [buildRow weekRange m]
  | none => writeRows sheet sheet.length [buildRow weekRange m]

theorem setRow_eq (rows : List (List String)) (i : Nat) (r : List String) (h : i ≤ rows.length) :
    setRow rows i r = rows.take i ++ r :: rows.drop (i + 1) := by
  induction rows generalizing i with
  | nil =>
    have : i = 0 := by simpa using h
    subst this
    rfl
  | cons x xs ih =>
    match i with
    | 0 =>
      simp [setRow, padTo]
    | j + 1 =>
      have hj : j ≤ xs.length := by simpa using h
      have hpad : padTo (x :: xs) (j + 2) = x :: padTo xs (j + 1) := by
        have hcount : (j + 2) - (x :: xs).length = (j + 1) - xs.length := by
          simp only [List.length_cons]
          omega
        simp only [padTo, hcount, List.cons_append]
      simp only [setRow] at *
      rw [hpad, List.set_cons_succ, List.take_succ_cons, List.drop_succ_cons, List.cons_append]
      congr 1
      exact ih j hj

theorem writeRows_eq :
    ∀ (vs rows : List (List String)) (i : Nat), i ≤ rows.length →
      writeRows rows i vs = rows.take i ++ vs ++ rows.drop (i + vs.length) := by
  intro vs
  induction vs with
  | nil =>
    intro rows i h
    simp [writeRows]
  | cons v vs ih =>
    intro rows i h
    rw [writeRows, setRow_eq rows i v h]
    have h1 : (rows.take i).length = i := by
      simp [List.length_take]
      omega
    have hle : i + 1 ≤ (rows.take i ++ v :: rows.drop (i + 1)).length := by
      simp
      omega
    rw [ih _ (i + 1) hle]
    have htk : (rows.take i ++ v :: rows.drop (i + 1)).take (i + 1) = rows.take i ++ [v] := by
      rw [List.take_append_eq_append_take, h1]
      have h2 : (rows.take i).take (i + 1) = rows.take i := by
        apply List.take_of_length_le
        rw [h1]
        omega
      rw [h2]
      have h3 : i + 1 - i = 1 := by omega
      rw [h3]
      rfl
    have hdr : (rows.take i ++ v :: rows.drop (i + 1)).drop (i + 1 + vs.length)
        = rows.drop (i + (vs.length + 1)) := by
      rw [List.drop_append_eq_append_drop, h1]
      have h2 : (rows.take i).drop (i + 1 + vs.length) = [] := by
        apply List.drop_eq_nil_of_le
        rw [h1]
        omega
      rw [h2, List.nil_append]
      have h3 : i + 1 + vs.length - i = vs.length + 1 := by omega
      rw [h3, List.drop_succ_cons, List.drop_drop]
      congr 1
      omega
    rw [htk, hdr]
    simp

theorem findRowIndex_lt_length (l : List (List String)) (p : List String → Bool) (i : Nat)
    (h : findRowIndex p l = some i) : i < l.length := by
  induction l generalizing i with
  | nil => simp [findRowIndex] at h
  | cons x xs ih =>
    rw [findRowIndex] at h
    by_cases hp : p x
    · rw [if_pos hp] at h
      cases h
      simp
    · rw [if_neg hp] at h
      rcases Option.map_eq_some'.mp h with ⟨j, hj, hji⟩
      have hjl := ih j hj
      subst hji
      simp only [List.length_cons]
      omega

/-- Counterexample to claim C8 as stated: backend.js `updateGoogleSheet` sets
`rowIndex = rows.length` when the label is absent, appending the new row
after the last existing row instead of inserting it directly below the
header.  With a header row and one data row, the new row lands at the
bottom, not in row 2. -/
theorem C8_sheet_upsert_counterexample :
    backendUpdateGoogleSheet [["Week"], ["X"]] "Y" ⟨1, 2, 3, 4, 5, 6, []⟩
      = [["Week"], ["X"], buildRow "Y" ⟨1, 2, 3, 4, 5, 6, []⟩]
  ∧ backendUpdateGoogleSheet [["Week"], ["X"]] "Y" ⟨1, 2, 3, 4, 5, 6, []⟩
      ≠ [["Week"], buildRow "Y" ⟨1, 2, 3, 4, 5, 6, []⟩, ["X"]] := by
  constructor
  · decide
  · decide

/-- Claim C8, amended: when a row with the label exists, both upsert variants
overwrite exactly that row (8 columns) in place, preserving the sheet
length; when no row matches, server.js inserts the new row directly below
the header, shifting prior data rows down by one in order, while backend.js
appends the new row after the last existing row. -/
theorem C8_sheet_upsert :
    (∀ (sheet : List (List String)) (label : String) (m : Metrics) (i : Nat),
      findRowIndex (rowMatches label) sheet = some i →
        serverUpdateGoogleSheet sheet label m
          = sheet.take i ++ buildRow label m :: sheet.drop (i + 1)
      ∧ backendUpdateGoogleSheet sheet label m
          = sheet.take i ++ buildRow label m :: sheet.drop (i + 1)
      ∧ (serverUpdateGoogleSheet sheet label m).length = sheet.length)
  ∧ (∀ label m, (buildRow label m).length = 8)
  ∧ (∀ (header : List String) (rest : List (List String)) (label : String) (m : Metrics),
      findRowIndex (rowMatches label) (header :: rest) = none →
        serverUpdateGoogleSheet (header :: rest) label m
          = header :: buildRow label m :: rest)
  ∧ (∀ (sheet : List (List String)) (label : String) (m : Metrics),
      findRowIndex (rowMatches label) sheet = none →
        backendUpdateGoogleSheet sheet label m = sheet ++ [buildRow label m]) := by
  refine ⟨?_, fun _ _ => rfl, ?_, ?_⟩
  · intro sheet label m i hfind
    have hi : i < sheet.length := findRowIndex_lt_length sheet (rowMatches label) i hfind
    have hov : writeRows sheet i [buildRow label m]
        = sheet.take i ++ buildRow label m :: sheet.drop (i + 1) := by
      rw [writeRows_eq [buildRow label m] sheet i (Nat.le_of_lt hi)]
      simp
    refine ⟨?_, ?_, ?_⟩
    · unfold serverUpdateGoogleSheet
      rw [hfind]
      exact hov
    · unfold backendUpdateGoogleSheet
      rw [hfind]
      exact hov
    · unfold serverUpdateGoogleSheet
      rw [hfind]
      show (writeRows sheet i [buildRow label m]).length = sheet.length
      rw [hov]
      simp
      omega
  · intro header rest label m hfind
    match rest with
    | [] =>
      unfold serverUpdateGoogleSheet
      rw [hfind]
      have hlen : ¬ ([header] : List (List String)).length > 1 := by simp
      rw [if_neg hlen, writeRows_eq [buildRow label m] [header] 1 (by simp)]
      rfl
    | r :: rs =>
      unfold serverUpdateGoogleSheet
      rw [hfind]
      have hlen : (header :: r :: rs).length > 1 := by simp
      rw [if_pos hlen]
      have hinner : writeRows (header :: r :: rs) 1 [buildRow label m]
          = header :: buildRow label m :: rs := by
        rw [writeRows_eq [buildRow label m] (header :: r :: rs) 1 (by simp)]
        rfl
      rw [hinner]
      have houter : writeRows (header :: buildRow label m :: rs) 2 ((header :: r :: rs).drop 1)
          = header :: buildRow label m :: r :: rs := by
        rw [List.drop_one, List.tail_cons,
          writeRows_eq (r :: rs) (header :: buildRow label m :: rs) 2
            (by simp only [List.length_cons]; omega)]
        have hdrop : (header :: buildRow label m :: rs).drop (2 + (r :: rs).length) = [] := by
          apply List.drop_eq_nil_of_le
          simp
          omega
        rw [hdrop]
        simp
      rw [houter]
  · intro sheet label m hfind
    unfold backendUpdateGoogleSheet
    rw [hfind, writeRows_eq [buildRow label m] sheet sheet.length (Nat.le_refl _)]
    simp

/-- Witness for the amended C8 at concrete inputs: upserting an existing
label overwrites its row in place, and upserting a fresh label lands below
the header in the server variant. -/
theorem C8_sheet_upsert_witness :
    serverUpdateGoogleSheet [["Week"], ["L1", "old"]] "L1" ⟨1, 2, 3, 4, 5, 6, []⟩
      = [["Week"], buildRow "L1" ⟨1, 2, 3, 4, 5, 6, []⟩]
  ∧ serverUpdateGoogleSheet [["Week"], ["L1", "old"]] "L9" ⟨1, 2, 3, 4, 5, 6, []⟩
      = [["Week"], buildRow "L9" ⟨1, 2, 3, 4, 5, 6, []⟩, ["L1", "old"]] := by
  constructor
  · rw [(C8_sheet_upsert.1 [["Week"], ["L1", "old"]] "L1" ⟨1, 2, 3, 4, 5, 6, []⟩ 1
      (by decide)).1]
    rfl
  · rw [C8_sheet_upsert.2.2.1 ["Week"] [["L1", "old"]] "L9" ⟨1, 2, 3, 4, 5, 6, []⟩
      (by decide)]

/-- Boolean check that one char list starts another (the char-by-char view of
a string startsWith used by the split model below). -/
def isPrefixL : List Char → List Char → Bool
  | [], _ => true
  | _ :: _, [] => false
  | p :: ps, c :: cs => p == c && isPrefixL ps cs

/-- JS `String.split(sep)` on char lists: scan left to right; at a separator
occurrence emit the current segment and skip the separator (the head char is
consumed on detection, the `skip` counter swallows the rest); occurrences are
non-overlapping. -/
def splitAux (sep : List Char) : List Char → List Char → Nat → List (List Char)
  | [], cur, _ => [cur.reverse]
  | c :: cs, cur, 0 =>
    if isPrefixL sep (c :: cs) then cur.reverse :: splitAux sep cs [] (sep.length - 1)
    else splitAux sep cs (c :: cur) 0
  | _ :: cs, cur, k + 1 => splitAux sep cs cur k

/-- JS `String.split(sep)` for a nonempty separator. -/
def splitOnSep (sep cs : List Char) : List (List Char) := splitAux sep cs [] 0

/-- The `" - "` separator of `weekRange.split(' - ')`. -/
def sepDash : List Char := [' ', '-', ' ']

/-- Short month names recognised by the `"MMM DD YYYY"` parse format. -/
def monthNames : List (List Char) :=
  ["Jan".data, "Feb".data, "Mar".data, "Apr".data, "May".data, "Jun".data,
   "Jul".data, "Aug".data, "Sep".data, "Oct".data, "Nov".data, "Dec".data]

def parseMonthAux (cs : List Char) : List (List Char) → Nat → Option Nat
  | [], _ => none
  | nm :: rest, i => if nm == cs then some (i + 1) else parseMonthAux cs rest (i + 1)

/-- The 1-based month number of a short month name, `none` when the token is
not a month name. -/
def parseMonth (cs : List Char) : Option Nat := parseMonthAux cs monthNames 0

/-- The canonical chars of month `i` (0-based index). -/
def monthName (i : Fin 12) : List Char := monthNames.getD i.val []

/-- Numeric value of a digit char. -/
def charDigit (c : Char) : Nat := c.toNat - 48

/-- Decimal value of a digit string, most significant digit first. -/
def digitsVal (cs : List Char) : Nat := cs.foldl (fun n c => 10 * n + charDigit c) 0

/-- Parse of a decimal numeral token. -/
def parseNatChars (cs : List Char) : Option Nat :=
  if cs ≠ [] ∧ cs.all Char.isDigit then some (digitsVal cs) else none

/-- Decimal digit chars of a number, most significant first. -/
def digitChar (d : Nat) : Char := Char.ofNat (48 + d)

/-- Canonical decimal numeral of a positive number. -/
def formatNat (n : Nat) : List Char := ((Nat.digits 10 n).map digitChar).reverse

/-- Gregorian leap year rule. -/
def isLeapYear (y : Nat) : Bool :=
  decide (y % 4 = 0) && (! decide (y % 100 = 0) || decide (y % 400 = 0))

/-- Days in a month; moment treats a day overflowing this bound as an invalid
date. -/
def daysInMonth (y m : Nat) : Nat :=
  if m = 2 then (if isLeapYear y then 29 else 28)
  else if m = 4 ∨ m = 6 ∨ m = 9 ∨ m = 11 then 30
  else 31

/-- Day count of a calendar date on the fixed local timeline (days since
0000-03-01, the standard civil-from-days era arithmetic). -/
def civilDays (y m d : Nat) : Nat :=
  let yr := if m ≤ 2 then y - 1 else y
  let era := yr / 400
  let yoe := yr % 400
  let mp := (m + 9) % 12
  let doy := (153 * mp + 2) / 5 + (d - 1)
  let doe := yoe * 365 + yoe / 4 - yoe / 100 + doy
  era * 146097 + doe

def msPerDay : Nat := 86400000

/-- moment `startOf(day)`: local midnight of the date, in ms on the fixed
local timeline. -/
def startOfDayMs (y m d : Nat) : Nat := civilDays y m d * msPerDay

/-- moment `endOf(day)`: local 23:59:59.999 of the date. -/
def endOfDayMs (y m d : Nat) : Nat := civilDays y m d * msPerDay + 86399999

/-- Combination of the three `"MMM DD YYYY"` tokens into a calendar date; a
day outside the month bounds makes the moment invalid. -/
def parseCivilTokens (monS dayS yearS : List Char) : Option (Nat × Nat × Nat) :=
  match parseMonth monS, parseNatChars dayS, parseNatChars yearS with
  | some m, some d, some y =>
    if 1 ≤ d ∧ d ≤ daysInMonth y m then some (y, m, d) else none
  | _, _, _ => none

/-- Parse of one `"MMM DD YYYY"` token list: split on spaces into month name,
day numeral and year numeral. -/
def parseCivilDate (cs : List Char) : Option (Nat × Nat × Nat) :=
  match splitOnSep [' '] cs with
  | [monS, dayS, yearS] => parseCivilTokens monS dayS yearS
  | _ => none

/-- Floor the first parsed date to start of day and ceil the second to end of
day; any invalid date poisons the result. -/
def parseDatePair : Option (Nat × Nat × Nat) → Option (Nat × Nat × Nat) → Option (Nat × Nat)
  | some (y1, m1, d1), some (y2, m2, d2) =>
    some (startOfDayMs y1 m1 d1, endOfDayMs y2 m2 d2)
  | _, _ => none

/-- `parseDateRange` (backend.js and the server revisions): split the label on
`" - "`, take the first two segments, parse each as `"MMM DD YYYY"` in the
fixed local timezone, floor the first to start of day and ceil the second to
end of day.  The server revisions also trim each segment, the identity on
well-formed labels. -/
def parseDateRange (label : String) : Option (Nat × Nat) :=
  match splitOnSep sepDash label.data with
  | s1 :: s2 :: _ => parseDatePair (parseCivilDate s1) (parseCivilDate s2)
  | _ => none

theorem beq_false_of_ne {a b : Char} (h : a ≠ b) : (a == b) = false := by
  simp [h]

theorem isPrefixL_sepDash_eq_false (c : Char) (rest : List Char)
    (h : rest.head? ≠ some '-') : isPrefixL sepDash (c :: rest) = false := by
  match rest with
  | [] => simp [sepDash, isPrefixL]
  | d :: rest' =>
    have hd : ('-' == d) = false := by
      apply beq_false_of_ne
      intro hh
      subst hh
      exact h rfl
    simp [sepDash, isPrefixL, hd]

theorem splitAux_sepDash_no (cs : List Char) :
    ∀ cur : List Char, '-' ∉ cs → splitAux sepDash cs cur 0 = [cur.reverse ++ cs] := by
  induction cs with
  | nil => intro cur h; simp [splitAux]
  | cons c cs ih =>
    intro cur h
    have hp : isPrefixL sepDash (c :: cs) = false := by
      apply isPrefixL_sepDash_eq_false
      match cs with
      | [] => simp
      | d :: cs' =>
        have hd : d ≠ '-' := by
          intro hh
          exact h (by simp [hh])
        simp
        exact hd
    rw [splitAux, hp]
    simp only [Bool.false_eq_true, if_false]
    rw [ih (c :: cur) (fun hm => h (List.mem_cons_of_mem c hm))]
    simp

theorem splitAux_sepDash_emit (a : List Char) :
    ∀ (b cur : List Char), '-' ∉ a →
      splitAux sepDash (a ++ (sepDash ++ b)) cur 0
        = (cur.reverse ++ a) :: splitAux sepDash b [] 0 := by
  induction a with
  | nil =>
    intro b cur h
    show splitAux sepDash (' ' :: '-' :: ' ' :: b) cur 0 = _
    rw [splitAux]
    have hp : isPrefixL sepDash (' ' :: '-' :: ' ' :: b) = true := by
      simp [sepDash, isPrefixL]
    rw [hp]
    simp only [if_true]
    show cur.reverse :: splitAux sepDash b [] 0 = (cur.reverse ++ []) :: splitAux sepDash b [] 0
    simp
  | cons c a' ih =>
    intro b cur h
    have hp : isPrefixL sepDash (c :: (a' ++ (sepDash ++ b))) = false := by
      apply isPrefixL_sepDash_eq_false
      match a' with
      | [] => simp [sepDash]
      | d :: a'' =>
        have hd : d ≠ '-' := by
          intro hh
          exact h (by simp [hh])
        simp
        exact hd
    rw [List.cons_append, splitAux, hp]
    simp only [Bool.false_eq_true, if_false]
    rw [ih b (c :: cur) (fun hm => h (List.mem_cons_of_mem c hm))]
    simp

/-- Splitting on `" - "` a concatenation whose halves are dash-free yields
exactly the two halves. -/
theorem splitOnSep_sepDash (a b : List Char) (ha : '-' ∉ a) (hb : '-' ∉ b) :
    splitOnSep sepDash (a ++ (sepDash ++ b)) = [a, b] := by
  unfold splitOnSep
  rw [splitAux_sepDash_emit a b [] ha, splitAux_sepDash_no b [] hb]
  simp

theorem isPrefixL_space_eq_false (c : Char) (rest : List Char) (hc : c ≠ ' ') :
    isPrefixL [' '] (c :: rest) = false := by
  have : (' ' == c) = false := beq_false_of_ne (fun hh => hc hh.symm)
  simp [isPrefixL, this]

theorem splitAux_space_no (cs : List Char) :
    ∀ cur : List Char, ' ' ∉ cs → splitAux [' '] cs cur 0 = [cur.reverse ++ cs] := by
  induction cs with
  | nil => intro cur h; simp [splitAux]
  | cons c cs ih =>
    intro cur h
    have hc : c ≠ ' ' := by
      intro hh
      exact h (by simp [hh])
    rw [splitAux, isPrefixL_space_eq_false c cs hc]
    simp only [Bool.false_eq_true, if_false]
    rw [ih (c :: cur) (fun hm => h (List.mem_cons_of_mem c hm))]
    simp

theorem splitAux_space_emit (a : List Char) :
    ∀ (b cur : List Char), ' ' ∉ a →
      splitAux [' '] (a ++ ' ' :: b) cur 0 = (cur.reverse ++ a) :: splitAux [' '] b [] 0 := by
  induction a with
  | nil =>
    intro b cur h
    show splitAux [' '] (' ' :: b) cur 0 = _
    rw [splitAux]
    have hp : isPrefixL [' '] (' ' :: b) = true := by simp [isPrefixL]
    rw [hp]
    simp only [if_true]
    show cur.reverse :: splitAux [' '] b [] 0 = (cur.reverse ++ []) :: splitAux [' '] b [] 0
    simp
  | cons c a' ih =>
    intro b cur h
    have hc : c ≠ ' ' := by
      intro hh
      exact h (by simp [hh])
    rw [List.cons_append, splitAux, isPrefixL_space_eq_false c _ hc]
    simp only [Bool.false_eq_true, if_false]
    rw [ih b (c :: cur) (fun hm => h (List.mem_cons_of_mem c hm))]
    simp

/-- Splitting a three-token `"MMM DD YYYY"` shape on spaces yields the three
tokens. -/
theorem splitOnSep_space3 (a b c : List Char)
    (ha : ' ' ∉ a) (hb : ' ' ∉ b) (hc : ' ' ∉ c) :
    splitOnSep [' '] (a ++ ' ' :: (b ++ ' ' :: c)) = [a, b, c] := by
  unfold splitOnSep
  rw [splitAux_space_emit a _ [] ha, splitAux_space_emit b _ [] hb, splitAux_space_no c [] hc]
  simp

theorem digit_ne_space {c : Char} (h : c.isDigit = true) : c ≠ ' ' := by
  intro hh
  subst hh
  exact absurd h (by decide)

theorem digit_ne_dash {c : Char} (h : c.isDigit = true) : c ≠ '-' := by
  intro hh
  subst hh
  exact absurd h (by decide)

theorem all_digits_no_space (cs : List Char) (h : cs.all Char.isDigit = true) : ' ' ∉ cs := by
  intro hm
  exact digit_ne_space (List.all_eq_true.mp h _ hm) rfl

theorem all_digits_no_dash (cs : List Char) (h : cs.all Char.isDigit = true) : '-' ∉ cs := by
  intro hm
  exact digit_ne_dash (List.all_eq_true.mp h _ hm) rfl

theorem monthName_parse (i : Fin 12) : parseMonth (monthName i) = some (i.val + 1) := by
  fin_cases i <;> decide

theorem monthName_no_space (i : Fin 12) : ' ' ∉ monthName i := by
  fin_cases i <;> decide

theorem monthName_no_dash (i : Fin 12) : '-' ∉ monthName i := by
  fin_cases i <;> decide

theorem parseNatChars_eq (cs : List Char) (h1 : cs ≠ []) (h2 : cs.all Char.isDigit = true) :
    parseNatChars cs = some (digitsVal cs) := by
  unfold parseNatChars
  rw [if_pos ⟨h1, h2⟩]

theorem parseCivilTokens_eq (monS dayS yearS : List Char) (m d y : Nat)
    (hm : parseMonth monS = some m) (hd : parseNatChars dayS = some d)
    (hy : parseNatChars yearS = some y) :
    parseCivilTokens monS dayS yearS
      = if 1 ≤ d ∧ d ≤ daysInMonth y m then some (y, m, d) else none := by
  unfold parseCivilTokens
  rw [hm, hd, hy]

/-- One well-formed `"MMM DD YYYY"` token list parses to the encoded date. -/
theorem parseCivilDate_spec (i : Fin 12) (ds ys : List Char)
    (hd : ds ≠ []) (hdall : ds.all Char.isDigit = true)
    (hy : ys ≠ []) (hyall : ys.all Char.isDigit = true)
    (hv : 1 ≤ digitsVal ds ∧ digitsVal ds ≤ daysInMonth (digitsVal ys) (i.val + 1)) :
    parseCivilDate (monthName i ++ ' ' :: (ds ++ ' ' :: ys))
      = some (digitsVal ys, i.val + 1, digitsVal ds) := by
  unfold parseCivilDate
  rw [splitOnSep_space3 (monthName i) ds ys (monthName_no_space i)
    (all_digits_no_space ds hdall) (all_digits_no_space ys hyall)]
  show parseCivilTokens (monthName i) ds ys = _
  rw [parseCivilTokens_eq (monthName i) ds ys (i.val + 1) (digitsVal ds) (digitsVal ys)
    (monthName_parse i) (parseNatChars_eq ds hd hdall) (parseNatChars_eq ys hy hyall)]
  rw [if_pos hv]

/-- A well-formed label as a string: month name, day numeral and year numeral
for each of the two dates, joined by `" - "`. -/
def mkLabel (i1 : Fin 12) (ds1 ys1 : List Char) (i2 : Fin 12) (ds2 ys2 : List Char) : String :=
  String.mk ((monthName i1 ++ ' ' :: (ds1 ++ ' ' :: ys1))
    ++ (sepDash ++ (monthName i2 ++ ' ' :: (ds2 ++ ' ' :: ys2))))

theorem dash_not_in_part (i : Fin 12) (ds ys : List Char)
    (hdall : ds.all Char.isDigit = true) (hyall : ys.all Char.isDigit = true) :
    '-' ∉ monthName i ++ ' ' :: (ds ++ ' ' :: ys) := by
  intro hm
  rcases List.mem_append.mp hm with h1 | h2
  · exact monthName_no_dash i h1
  · rcases List.mem_cons.mp h2 with h3 | h4
    · exact absurd h3 (by decide)
    · rcases List.mem_append.mp h4 with h5 | h6
      · exact all_digits_no_dash ds hdall h5
      · rcases List.mem_cons.mp h6 with h7 | h8
        · exact absurd h7 (by decide)
        · exact all_digits_no_dash ys hyall h8

theorem charDigit_digitChar (d : Nat) (h : d < 10) : charDigit (digitChar d) = d := by
  interval_cases d <;> decide

theorem isDigit_digitChar (d : Nat) (h : d < 10) : (digitChar d).isDigit = true := by
  interval_cases d <;> decide

theorem digitsVal_append_one (xs : List Char) (c : Char) :
    digitsVal (xs ++ [c]) = 10 * digitsVal xs + charDigit c := by
  unfold digitsVal
  rw [List.foldl_append]
  rfl

theorem digitsVal_rev_map (L : List Nat) (h : ∀ d ∈ L, d < 10) :
    digitsVal ((L.map digitChar).reverse) = Nat.ofDigits 10 L := by
  induction L with
  | nil => rfl
  | cons d L ih =>
    rw [List.map_cons, List.reverse_cons, digitsVal_append_one,
      ih (fun x hx => h x (List.mem_cons_of_mem d hx)),
      charDigit_digitChar d (h d (List.mem_cons_self d L)), Nat.ofDigits_cons]
    ring

/-- Parsing the canonical numeral of a positive number recovers it. -/
theorem parseNat_format (n : Nat) (h : 0 < n) : parseNatChars (formatNat n) = some n := by
  have hne : formatNat n ≠ [] := by
    unfold formatNat
    simp [Nat.digits_ne_nil_iff_ne_zero]
    omega
  have hall : (formatNat n).all Char.isDigit = true := by
    apply List.all_eq_true.mpr
    intro c hc
    unfold formatNat at hc
    rw [List.mem_reverse, List.mem_map] at hc
    obtain ⟨d, hd, rfl⟩ := hc
    exact isDigit_digitChar d (Nat.digits_lt_base (by omega) hd)
  rw [parseNatChars_eq _ hne hall]
  unfold formatNat
  rw [digitsVal_rev_map _ (fun d hd => Nat.digits_lt_base (by omega) hd),
    Nat.ofDigits_digits]

/-- Claim C5: every well-formed `"Mon DD YYYY - Mon DD YYYY"` label parses to
the pair (local midnight of the first date, local end of day of the second
date) on the fixed local timeline; and canonical numerals round-trip through
the numeral parser. -/
theorem C5_parse_date_range :
    (∀ (i1 i2 : Fin 12) (ds1 ys1 ds2 ys2 : List Char),
      ds1 ≠ [] → ds1.all Char.isDigit = true →
      ys1 ≠ [] → ys1.all Char.isDigit = true →
      ds2 ≠ [] → ds2.all Char.isDigit = true →
      ys2 ≠ [] → ys2.all Char.isDigit = true →
      1 ≤ digitsVal ds1 → digitsVal ds1 ≤ daysInMonth (digitsVal ys1) (i1.val + 1) →
      1 ≤ digitsVal ds2 → digitsVal ds2 ≤ daysInMonth (digitsVal ys2) (i2.val + 1) →
      parseDateRange (mkLabel i1 ds1 ys1 i2 ds2 ys2)
        = some (startOfDayMs (digitsVal ys1) (i1.val + 1) (digitsVal ds1),
                endOfDayMs (digitsVal ys2) (i2.val + 1) (digitsVal ds2)))
  ∧ (∀ n : Nat, 0 < n → parseNatChars (formatNat n) = some n) := by
  constructor
  · intro i1 i2 ds1 ys1 ds2 ys2 hd1 hd1a hy1 hy1a hd2 hd2a hy2 hy2a hlo1 hhi1 hlo2 hhi2
    unfold parseDateRange mkLabel
    show (match splitOnSep sepDash ((monthName i1 ++ ' ' :: (ds1 ++ ' ' :: ys1))
        ++ (sepDash ++ (monthName i2 ++ ' ' :: (ds2 ++ ' ' :: ys2)))) with
      | s1 :: s2 :: _ => parseDatePair (parseCivilDate s1) (parseCivilDate s2)
      | _ => none) = _
    rw [splitOnSep_sepDash _ _ (dash_not_in_part i1 ds1 ys1 hd1a hy1a)
      (dash_not_in_part i2 ds2 ys2 hd2a hy2a)]
    show parseDatePair
        (parseCivilDate (monthName i1 ++ ' ' :: (ds1 ++ ' ' :: ys1)))
        (parseCivilDate (monthName i2 ++ ' ' :: (ds2 ++ ' ' :: ys2))) = _
    rw [parseCivilDate_spec i1 ds1 ys1 hd1 hd1a hy1 hy1a ⟨hlo1, hhi1⟩,
      parseCivilDate_spec i2 ds2 ys2 hd2 hd2a hy2 hy2a ⟨hlo2, hhi2⟩]
    rfl
  · exact parseNat_format

/-- Witness for C5 at the concrete label of the spec scenario:
`"Jan 1 2024 - Jan 7 2024"` parses to the local midnight of Jan 1 2024 and
the local end of day of Jan 7 2024. -/
theorem C5_parse_date_range_witness :
    parseDateRange "Jan 1 2024 - Jan 7 2024"
      = some (startOfDayMs 2024 1 1, endOfDayMs 2024 1 7) := by
  have hlbl : mkLabel ⟨0, by omega⟩ ['1'] ['2', '0', '2', '4'] ⟨0, by omega⟩
      ['7'] ['2', '0', '2', '4'] = "Jan 1 2024 - Jan 7 2024" := by decide
  have h := C5_parse_date_range.1 ⟨0, by omega⟩ ⟨0, by omega⟩
    ['1'] ['2', '0', '2', '4'] ['7'] ['2', '0', '2', '4']
    (by decide) (by decide) (by decide) (by decide)
    (by decide) (by decide) (by decide) (by decide)
    (by decide) (by decide) (by decide) (by decide)
  rw [hlbl] at h
  have hv1 : digitsVal ['1'] = 1 := by decide
  have hv7 : digitsVal ['7'] = 7 := by decide
  have hvy : digitsVal ['2', '0', '2', '4'] = 2024 := by decide
  rw [hv1, hv7, hvy] at h
  exact h

/-- The JS regex whitespace class (the characters matched by the class the
strict URL pattern excludes). -/
def isJsSpace (c : Char) : Bool :=
  decide (c = ' ' ∨ c = '\t' ∨ c = '\n' ∨ c.toNat = 11 ∨ c.toNat = 12 ∨ c = '\r' ∨
    c.toNat = 160 ∨ c.toNat = 5760 ∨ (8192 ≤ c.toNat ∧ c.toNat ≤ 8202) ∨
    c.toNat = 8232 ∨ c.toNat = 8233 ∨ c.toNat = 8239 ∨ c.toNat = 8287 ∨
    c.toNat = 12288 ∨ c.toNat = 65279)

/-- A char admitted by the strict URL tail class (no whitespace, `<`, `>` or
double quote). -/
def strictTailChar (c : Char) : Bool := ! (isJsSpace c || c == '<' || c == '>' || c == '"')

/-- Length of the maximal prefix run satisfying a char predicate (a greedy
`+` or `*` with nothing after it needs no backtracking). -/
def runLen (p : Char → Bool) : List Char → Nat
  | [] => 0
  | c :: cs => if p c then runLen p cs + 1 else 0

/-- Match attempt of the strict backend.js URL regex at one position:
the alternation tries the protocol form first (greedy optional `s`), then
the `www.` form; each requires at least one tail char. -/
def matchStrictAt (cs : List Char) : Option Nat :=
  if isPrefixL "https://".data cs then
    (if runLen strictTailChar (cs.drop 8) = 0 then none
     else some (8 + runLen strictTailChar (cs.drop 8)))
  else if isPrefixL "http://".data cs then
    (if runLen strictTailChar (cs.drop 7) = 0 then none
     else some (7 + runLen strictTailChar (cs.drop 7)))
  else if isPrefixL "www.".data cs then
    (if runLen strictTailChar (cs.drop 4) = 0 then none
     else some (4 + runLen strictTailChar (cs.drop 4)))
  else none

/-- The JS word class (ASCII letters, digits, underscore). -/
def isWordChar (c : Char) : Bool := c.isAlpha || c.isDigit || c == '_'

/-- The body class of the loose server.js URL regex before the mandatory
dot. -/
def classAChar (c : Char) : Bool :=
  isWordChar c || ['-', '@', ':', '%', '.', '_', '+', '~', '#', '='].contains c

/-- The optional tail class of the loose URL regex. -/
def classBChar (c : Char) : Bool :=
  isWordChar c ||
    ['-', '(', ')', '@', ':', '%', '_', '+', '.', '~', '#', '?', '&', '/', '='].contains c

/-- Case-insensitive char-list prefix test (the loose regex carries the `i`
flag). -/
def isPrefixLCI : List Char → List Char → Bool
  | [], _ => true
  | _ :: _, [] => false
  | p :: ps, c :: cs => p.toLower == c.toLower && isPrefixLCI ps cs

/-- Backtracking search trying candidate lengths from `k` down to 1 (the
order a greedy bounded quantifier retries). -/
def firstDesc (f : Nat → Option Nat) : Nat → Option Nat
  | 0 => none
  | k + 1 =>
    match f (k + 1) with
    | some r => some r
    | none => firstDesc f k

/-- The loose regex after the mandatory dot: a greedy letter run of length at
least 2, a word boundary, then the greedy optional tail class. -/
def looseAfterDot (after : List Char) : Option Nat :=
  firstDesc (fun m =>
    if m < 2 then none
    else
      match (after.drop m).head? with
      | some c =>
        if isWordChar c then none
        else some (m + runLen classBChar (after.drop m))
      | none => some (m + runLen classBChar (after.drop m)))
    (runLen (fun c => c.isAlpha) after)

/-- The loose regex body after the optional protocol: a greedy 1..256 run of
the pre-dot class, the literal dot, then the post-dot part; the pre-dot
length backtracks from the greedy maximum down to 1. -/
def looseBody (cs : List Char) : Option Nat :=
  firstDesc (fun k =>
    match (cs.drop k).head? with
    | some c =>
      if c == '.' then
        match looseAfterDot (cs.drop (k + 1)) with
        | some t => some (k + 1 + t)
        | none => none
      else none
    | none => none)
    (min (runLen classAChar cs) 256)

/-- Protocol prefixes the greedy optional group tries in order (`https`,
`http`, `ftp`, then no protocol), case-insensitively. -/
def looseProtocolOptions (cs : List Char) : List Nat :=
  (if isPrefixLCI "https://".data cs then [8] else [])
    ++ (if isPrefixLCI "http://".data cs then [7] else [])
    ++ (if isPrefixLCI "ftp://".data cs then [6] else [])
    ++ [0]

def tryOffsets (cs : List Char) : List Nat → Option Nat
  | [] => none
  | p :: ps =>
    match looseBody (cs.drop p) with
    | some b => some (p + b)
    | none => tryOffsets cs ps

/-- Match attempt of the loose server.js URL regex at one position. -/
def matchLooseAt (cs : List Char) : Option Nat := tryOffsets cs (looseProtocolOptions cs)

/-- Global scan of `content.match(regex)`: find the leftmost match, emit it,
resume right after it; the fuel equals the scanned length (every step
consumes at least one char). -/
def scanFromFuel (matcher : List Char → Option Nat) : Nat → List Char → List (List Char)
  | 0, _ => []
  | _, [] => []
  | fuel + 1, c :: rest =>
    match matcher (c :: rest) with
    | some len => (c :: rest).take len :: scanFromFuel matcher fuel ((c :: rest).drop len)
    | none => scanFromFuel matcher fuel rest

/-- All regex matches of a char list, in order. -/
def scanUrls (matcher : List Char → Option Nat) (cs : List Char) : List (List Char) :=
  scanFromFuel matcher cs.length cs

/-- backend.js `content.match(urlRegex)` (strict pattern). -/
def extractUrlsStrict (content : String) : List String :=
  (scanUrls matchStrictAt content.data).map (fun l => String.mk l)

/-- server.js `content.match(urlRegex)` (loose pattern with the `i` flag). -/
def extractUrlsLoose (content : String) : List String :=
  (scanUrls matchLooseAt content.data).map (fun l => String.mk l)

/-- Index of the first occurrence of `needle`, the model of
`String.includes`. -/
def findSub (needle : List Char) : List Char → Option Nat
  | [] => if isPrefixL needle [] then some 0 else none
  | c :: cs => if isPrefixL needle (c :: cs) then some 0 else (findSub needle cs).map (fun j => j + 1)

/-- `msg.content.toLowerCase().includes(".cerebras.ai")`. -/
def mentionsExcluded (content : String) : Bool :=
  (findSub ".cerebras.ai".data (content.data.map Char.toLower)).isSome

/-- JS `Set.add` followed by `Array.from`: keep first-insertion order, never
insert a string twice. -/
def addUnique (acc : List String) (x : String) : List String :=
  if x ∈ acc then acc else acc ++ [x]

/-- backend.js `getProjectLinks`: scan the designated channel, skip messages
mentioning the excluded domain fragment, extract the strict-pattern URLs and
deduplicate them in insertion order. -/
def backendGetProjectLinks (pages : List (Option (List RawMsg))) (s e : Nat) : List String :=
  (getChannelMessages s e pages).foldl
    (fun acc msg =>
      if ! mentionsExcluded msg.content then
        (extractUrlsStrict msg.content).foldl addUnique acc
      else acc) []

/-- First-server-revision `getProjectLinks`: same shape over the overlay
fetcher, also skipping deleted messages, with the loose pattern. -/
def serverGetProjectLinks (deletePages : List (Option (List AuditEntry)))
    (ch : ChannelData) (s e : Nat) : List String :=
  (getAllChannelMessages deletePages ch s e).foldl
    (fun acc msg =>
      if ! msg.deleted && ! mentionsExcluded msg.content then
        (extractUrlsLoose msg.content).foldl addUnique acc
      else acc) []

/-- `metrics.projectsShowcased = metrics.projectLinks.length` in the
handlers. -/
def projectsShowcased (links : List String) : Nat := links.length

/-- One char list occurs contiguously inside another. -/
def SubSeg (l₁ l₂ : List Char) : Prop := ∃ pre post, l₂ = pre ++ l₁ ++ post

theorem SubSeg.refl (l : List Char) : SubSeg l l := ⟨[], [], by simp⟩

theorem SubSeg.trans {a b c : List Char} (h1 : SubSeg a b) (h2 : SubSeg b c) : SubSeg a c := by
  obtain ⟨p1, q1, rfl⟩ := h1
  obtain ⟨p2, q2, rfl⟩ := h2
  exact ⟨p2 ++ p1, q1 ++ q2, by simp⟩

theorem SubSeg.map (f : Char → Char) {a b : List Char} (h : SubSeg a b) :
    SubSeg (a.map f) (b.map f) := by
  obtain ⟨p, q, rfl⟩ := h
  exact ⟨p.map f, q.map f, by simp⟩

theorem SubSeg.take (l : List Char) (n : Nat) : SubSeg (l.take n) l :=
  ⟨[], l.drop n, by simp⟩

theorem SubSeg.drop (l : List Char) (n : Nat) : SubSeg (l.drop n) l :=
  ⟨l.take n, [], by simp⟩

theorem isPrefixL_iff (p : List Char) :
    ∀ l : List Char, isPrefixL p l = true ↔ ∃ t, l = p ++ t := by
  induction p with
  | nil =>
    intro l
    simp [isPrefixL]
  | cons x ps ih =>
    intro l
    match l with
    | [] =>
      simp [isPrefixL]
    | c :: cs =>
      rw [isPrefixL]
      constructor
      · intro h
        rcases (Bool.and_eq_true _ _).mp h with ⟨h1, h2⟩
        have hx : x = c := by simpa using h1
        obtain ⟨t, rfl⟩ := (ih cs).mp h2
        exact ⟨t, by simp [hx]⟩
      · rintro ⟨t, ht⟩
        rw [List.cons_append] at ht
        injection ht with h1 h2
        subst h1
        subst h2
        have hrec := (ih (ps ++ t)).mpr ⟨t, rfl⟩
        simp [hrec]

theorem findSub_isSome_iff (needle : List Char) :
    ∀ hay : List Char, (findSub needle hay).isSome = true ↔ SubSeg needle hay := by
  intro hay
  induction hay with
  | nil =>
    rw [findSub]
    by_cases hp : isPrefixL needle [] = true
    · rw [if_pos hp]
      obtain ⟨t, ht⟩ := (isPrefixL_iff needle []).mp hp
      have hn : needle = [] := by
        match needle, t, ht with
        | [], _, _ => rfl
      simp [hn, SubSeg]
    · rw [if_neg hp]
      simp
      rintro ⟨pre, post, hh⟩
      match pre, hh with
      | [], hh =>
        apply hp
        exact (isPrefixL_iff needle []).mpr ⟨post, hh⟩
  | cons c cs ih =>
    rw [findSub]
    by_cases hp : isPrefixL needle (c :: cs) = true
    · rw [if_pos hp]
      obtain ⟨t, ht⟩ := (isPrefixL_iff needle (c :: cs)).mp hp
      simp
      exact ⟨[], t, ht⟩
    · rw [if_neg hp]
      constructor
      · intro h
        have : (findSub needle cs).isSome = true := by
          match hfs : findSub needle cs with
          | some j => rfl
          | none => rw [hfs] at h; simp at h
        obtain ⟨pre, post, hh⟩ := ih.mp this
        exact ⟨c :: pre, post, by simp [hh]⟩
      · rintro ⟨pre, post, hh⟩
        match pre, hh with
        | [], hh =>
          exact absurd ((isPrefixL_iff needle (c :: cs)).mpr ⟨post, hh⟩) hp
        | p :: pre', hh =>
          rw [List.cons_append, List.cons_append] at hh
          injection hh with h1 h2
          have : (findSub needle cs).isSome = true := ih.mpr ⟨pre', post, h2⟩
          match hfs : findSub needle cs with
          | some j => simp
          | none => rw [hfs] at this; simp at this

theorem mem_scanFromFuel_subseg (matcher : List Char → Option Nat) :
    ∀ (fuel : Nat) (cs l : List Char), l ∈ scanFromFuel matcher fuel cs → SubSeg l cs := by
  intro fuel
  induction fuel with
  | zero => intro cs l h; simp [scanFromFuel] at h
  | succ f ih =>
    intro cs l h
    match cs with
    | [] => simp [scanFromFuel] at h
    | c :: rest =>
      rw [scanFromFuel] at h
      match hm : matcher (c :: rest) with
      | some len =>
        rw [hm] at h
        rcases List.mem_cons.mp h with h1 | h2
        · subst h1; exact SubSeg.take _ _
        · exact (ih _ l h2).trans (SubSeg.drop _ _)
      | none =>
        rw [hm] at h
        have := ih rest l h
        exact this.trans ⟨[c], [], by simp⟩

/-- A link produced by the extractors is a contiguous substring of the
message content. -/
theorem mem_extract_subseg (matcher : List Char → Option Nat) (content link : String)
    (h : link ∈ (scanUrls matcher content.data).map (fun l => String.mk l)) :
    SubSeg link.data content.data := by
  rw [List.mem_map] at h
  obtain ⟨l, hl, rfl⟩ := h
  exact mem_scanFromFuel_subseg matcher _ _ l hl

/-- A link that is a substring of a content not mentioning the excluded
fragment cannot itself mention it (case-insensitively). -/
theorem link_not_excluded (content : String) (link : String)
    (hc : mentionsExcluded content = false) (hsub : SubSeg link.data content.data) :
    mentionsExcluded link = false := by
  by_contra h
  have h1 : mentionsExcluded link = true := by
    match hb : mentionsExcluded link with
    | true => rfl
    | false => exact absurd hb h
  have h2 : SubSeg (".cerebras.ai".data) (link.data.map Char.toLower) :=
    (findSub_isSome_iff _ _).mp h1
  have h3 : SubSeg (link.data.map Char.toLower) (content.data.map Char.toLower) :=
    hsub.map Char.toLower
  have h4 : (findSub (".cerebras.ai".data) (content.data.map Char.toLower)).isSome = true :=
    (findSub_isSome_iff _ _).mpr (h2.trans h3)
  rw [mentionsExcluded, h4] at hc
  exact absurd hc (by simp)

theorem mem_foldl_addUnique (ls : List String) :
    ∀ (acc : List String) (x : String), x ∈ ls.foldl addUnique acc → x ∈ acc ∨ x ∈ ls := by
  induction ls with
  | nil => intro acc x h; exact Or.inl h
  | cons l ls ih =>
    intro acc x h
    rw [List.foldl_cons] at h
    rcases ih (addUnique acc l) x h with h1 | h2
    · unfold addUnique at h1
      by_cases hm : l ∈ acc
      · rw [if_pos hm] at h1; exact Or.inl h1
      · rw [if_neg hm] at h1
        rcases List.mem_append.mp h1 with h3 | h4
        · exact Or.inl h3
        · simp at h4; subst h4; exact Or.inr (List.mem_cons_self _ _)
    · exact Or.inr (List.mem_cons_of_mem l h2)

theorem nodup_foldl_addUnique (ls : List String) :
    ∀ acc : List String, acc.Nodup → (ls.foldl addUnique acc).Nodup := by
  induction ls with
  | nil => intro acc h; exact h
  | cons l ls ih =>
    intro acc h
    rw [List.foldl_cons]
    apply ih
    unfold addUnique
    by_cases hm : l ∈ acc
    · rw [if_pos hm]; exact h
    · rw [if_neg hm]
      simp [List.nodup_append, h, hm]

theorem fold_links_mem {α : Type} (keep : α → Bool) (urls : α → List String) :
    ∀ (msgs : List α) (acc : List String) (x : String),
      x ∈ msgs.foldl (fun a m => if keep m then (urls m).foldl addUnique a else a) acc →
      x ∈ acc ∨ ∃ m, m ∈ msgs ∧ keep m = true ∧ x ∈ urls m := by
  intro msgs
  induction msgs with
  | nil => intro acc x h; exact Or.inl h
  | cons m msgs ih =>
    intro acc x h
    rw [List.foldl_cons] at h
    by_cases hk : keep m
    · rw [if_pos hk] at h
      rcases ih _ x h with h1 | ⟨m', hm', hk', hx'⟩
      · rcases mem_foldl_addUnique _ acc x h1 with h2 | h3
        · exact Or.inl h2
        · exact Or.inr ⟨m, List.mem_cons_self m msgs, hk, h3⟩
      · exact Or.inr ⟨m', List.mem_cons_of_mem m hm', hk', hx'⟩
    · rw [if_neg hk] at h
      rcases ih acc x h with h1 | ⟨m', hm', hk', hx'⟩
      · exact Or.inl h1
      · exact Or.inr ⟨m', List.mem_cons_of_mem m hm', hk', hx'⟩

theorem fold_links_nodup {α : Type} (keep : α → Bool) (urls : α → List String) :
    ∀ (msgs : List α) (acc : List String), acc.Nodup →
      (msgs.foldl (fun a m => if keep m then (urls m).foldl addUnique a else a) acc).Nodup := by
  intro msgs
  induction msgs with
  | nil => intro acc h; exact h
  | cons m msgs ih =>
    intro acc h
    rw [List.foldl_cons]
    by_cases hk : keep m
    · rw [if_pos hk]
      exact ih _ (nodup_foldl_addUnique _ acc h)
    · rw [if_neg hk]
      exact ih acc h

/-- Claim C7: the project-links metric scans the in-window (and, in the
server revision, non-deleted) messages of the designated links channel,
extracts URL-like substrings, never returns a URL containing the excluded
domain fragment in any casing, deduplicates the returned strings, and the
projects-showcased count is the length of the returned list. -/
theorem C7_project_links :
    (∀ pages s e link, link ∈ backendGetProjectLinks pages s e →
      mentionsExcluded link = false)
  ∧ (∀ pages s e, (backendGetProjectLinks pages s e).Nodup)
  ∧ (∀ pages s e link, link ∈ backendGetProjectLinks pages s e →
      ∃ m, m ∈ getChannelMessages s e pages ∧ link ∈ extractUrlsStrict m.content)
  ∧ (∀ deletePages ch s e link, link ∈ serverGetProjectLinks deletePages ch s e →
      mentionsExcluded link = false
      ∧ ∃ m, m ∈ getAllChannelMessages deletePages ch s e ∧ m.deleted = false
          ∧ link ∈ extractUrlsLoose m.content)
  ∧ (∀ deletePages ch s e, (serverGetProjectLinks deletePages ch s e).Nodup)
  ∧ (∀ links, projectsShowcased links = links.length) := by
  refine ⟨?_, ?_, ?_, ?_, ?_, fun _ => rfl⟩
  · intro pages s e link h
    rcases fold_links_mem _ _ _ [] link h with h1 | ⟨m, hm, hk, hx⟩
    · simp at h1
    · have hnm : mentionsExcluded m.content = false := by
        match hb : mentionsExcluded m.content with
        | false => rfl
        | true => rw [hb] at hk; exact absurd hk (by simp)
      exact link_not_excluded m.content link hnm
        (mem_extract_subseg matchStrictAt m.content link hx)
  · intro pages s e
    exact fold_links_nodup _ _ _ [] List.nodup_nil
  · intro pages s e link h
    rcases fold_links_mem _ _ _ [] link h with h1 | ⟨m, hm, hk, hx⟩
    · simp at h1
    · exact ⟨m, hm, hx⟩
  · intro deletePages ch s e link h
    rcases fold_links_mem _ _ _ [] link h with h1 | ⟨m, hm, hk, hx⟩
    · simp at h1
    · rcases (Bool.and_eq_true _ _).mp hk with ⟨hk1, hk2⟩
      have hdel : m.deleted = false := by
        match hb : m.deleted with
        | false => rfl
        | true => rw [hb] at hk1; exact absurd hk1 (by simp)
      have hnm : mentionsExcluded m.content = false := by
        match hb : mentionsExcluded m.content with
        | false => rfl
        | true => rw [hb] at hk2; exact absurd hk2 (by simp)
      refine ⟨?_, m, hm, hdel, hx⟩
      exact link_not_excluded m.content link hnm
        (mem_extract_subseg matchLooseAt m.content link hx)
  · intro deletePages ch s e
    exact fold_links_nodup _ _ _ [] List.nodup_nil

/-- Witness for C7 at a concrete input: a single in-window message yields one
extracted link, and that link does not mention the excluded fragment. -/
theorem C7_project_links_witness :
    backendGetProjectLinks [some [⟨1, 1, 5, "see https://a.io", none⟩]] 0 10
      = ["https://a.io"]
  ∧ mentionsExcluded "https://a.io" = false :=
  ⟨by decide,
   C7_project_links.1 [some [⟨1, 1, 5, "see https://a.io", none⟩]] 0 10 "https://a.io"
     (by decide)⟩

end GHAnalytics
